import Mathlib

/-!
Verification development for the kino model checker's core:
hash-consed term algebra, operator semantics, offset model, zipper
traversal, evaluator, and the BMC loop protocol.

Shallow embedding notes:

* Machine integers: `Offset` wraps a `u16` step counter; only comparison
  and successor are relevant to the properties below, so it is embedded
  as `Nat` (no wraparound is exercised by any property considered here).
* `Sym` (interned symbols) is embedded as `String`; interning only
  affects performance, not the algebra.
* Hash-consed constants `Cst = HConsed<RealCst>` are embedded by their
  underlying value `RCst`: under the canonicalization invariant, handle
  equality coincides with structural equality of the payloads.
-/

/-- States of a state variable: current or next (`base.rs`, `State`). -/
inductive State where
  | Curr
  | Next
deriving DecidableEq, Repr

/-- The types of the term language (`typ.rs`, not under `src/`).
Modelled from the spec: §4.2 names exactly the types Bool, Int and
Rational ("first establishes a numeric type (Int or Rational)"). -/
inductive Typ where
  | Bool
  | Int
  | Rat
deriving DecidableEq, Repr

/-- Alias for the builtin booleans (the constructor `RCst.Bool` would
otherwise shadow the field's type inside the declaration). -/
abbrev BoolV := Bool

/-- Alias for the builtin unbounded integers (`num::BigInt`). -/
abbrev IntV := Int

/-- Alias for the builtin rationals (`num::BigRational`). -/
abbrev RatV := Rat

/-- Underlying representation of constants (`cst.rs`, not under `src/`).
Modelled from the spec: constants are boolean, integer (unbounded), or
rational values; `term.rs` pattern-matches exactly the variants
`Bool`, `Int` and `Rat`. -/
inductive RCst where
  | Bool (b : BoolV)
  | Int (i : IntV)
  | Rat (q : RatV)
deriving DecidableEq, Repr

/-- The type of a constant (`cst.rs` `typ()`, not under `src/`).
Modelled from the spec: each constant belongs to exactly one of the
three types. -/
def RCst.typ : RCst → Typ
  | .Bool _ => .Bool
  | .Int _ => .Int
  | .Rat _ => .Rat

/-- Is this constant a numeric zero? Used to express the "zero divisor"
condition of §4.2. -/
def RCst.isZero : RCst → BoolV
  | .Int i => i = 0
  | .Rat q => q = 0
  | .Bool _ => false

/-- Constant addition (`cst.rs`, not under `src/`). Modelled from the
spec: arithmetic is defined on two constants of the same numeric type;
a mismatch is an error (`Err` carries the offending constant, as the
call sites in `Operator::eval` use its type for the error report). -/
def RCst.add : RCst → RCst → Except RCst RCst
  | .Int a, .Int b => .ok (.Int (a + b))
  | .Rat a, .Rat b => .ok (.Rat (a + b))
  | _, c => .error c

/-- Constant subtraction (`cst.rs`, not under `src/`). Modelled from the
spec, as `RCst.add`. -/
def RCst.sub : RCst → RCst → Except RCst RCst
  | .Int a, .Int b => .ok (.Int (a - b))
  | .Rat a, .Rat b => .ok (.Rat (a - b))
  | _, c => .error c

/-- Constant multiplication (`cst.rs`, not under `src/`). Modelled from
the spec, as `RCst.add`. -/
def RCst.mul : RCst → RCst → Except RCst RCst
  | .Int a, .Int b => .ok (.Int (a * b))
  | .Rat a, .Rat b => .ok (.Rat (a * b))
  | _, c => .error c

/-- Constant division (`cst.rs`, not under `src/`). Modelled from the
spec: "Div by a zero divisor is an evaluation error"; division of two
same-typed numeric constants otherwise succeeds (integer division for
`Int`). -/
def RCst.div : RCst → RCst → Except RCst RCst
  | .Int a, .Int b => if b = 0 then .error (.Int b) else .ok (.Int (a / b))
  | .Rat a, .Rat b => if b = 0 then .error (.Rat b) else .ok (.Rat (a / b))
  | _, c => .error c

/-- Constant negation (`cst.rs`, not under `src/`). Modelled from the
spec: "Sub with exactly one argument means unary negation"; negation is
only defined on numeric constants. -/
def RCst.neg : RCst → Option RCst
  | .Int a => some (.Int (-a))
  | .Rat a => some (.Rat (-a))
  | .Bool _ => none

/-- Standard operators (`term.rs`, `Operator`). -/
inductive Operator where
  | Eq
  | Ite
  | Not
  | And
  | Or
  | Impl
  | Xor
  | Distinct
  | Add
  | Sub
  | Mul
  | Div
  | Le
  | Ge
  | Lt
  | Gt
deriving DecidableEq, Repr

/-- The structured payload of the free-text part of an operator error.
Each constructor stands for one `format!` template used in
`Operator::eval` (`term.rs`), carrying exactly the values interpolated
into that template. -/
inductive Blurb where
  /-- "(found `c` for argument `pos`)" — the And/Or/Impl/Xor scans. -/
  | foundForArg (c : RCst) (pos : Nat)
  /-- "for first argument" — the Ite condition. -/
  | forFirstArg
  /-- "(found `c`)" — the comparison right-hand side. -/
  | found (c : RCst)
  /-- "or Rat (found `c`)" — the comparison left-hand side. -/
  | orRat (c : RCst)
deriving DecidableEq, Repr

/-- Evaluation errors of `Operator::eval` (`errors.rs` `ErrorKind`,
callers in `term.rs`). `opArityError op found expected` embeds
`ErrorKind::OpArityError`; `opTypeError op found expected blurb` embeds
`ErrorKind::OpTypeError`; `msg` embeds the plain string errors. -/
inductive EvalError where
  | opArityError (op : Operator) (found : Nat) (expected : String)
  | opTypeError (op : Operator) (found : Typ) (expected : Typ)
      (blurb : Option Blurb)
  | msg (s : String)
deriving DecidableEq, Repr

namespace Operator

/-- The arity of the operator, `none` for n-ary operators
(`term.rs`, `Operator::arity`). -/
def arity : Operator → Option Nat
  | .Not => some 1
  | .Div | .Le | .Ge | .Lt | .Gt => some 2
  | .Ite => some 3
  | .Eq | .And | .Or | .Impl | .Xor | .Distinct | .Add | .Sub | .Mul => none

/-- Loop of the `Eq`/`Distinct` type check: every further type must
equal `first`; `cpt` counts from the given start (`term.rs`,
`Operator::type_check`, the `for typ in sig` loops). The error carries
the offending positions and a message; messages are abstracted to the
constructor tag (the interpolated values are recoverable from the
fields). -/
def tcAllEqLoop (first : Typ) (cpt : Nat) :
    List Typ → Except (Option (List Nat) × String) Unit
  | [] => .ok ()
  | typ :: rest =>
    if typ ≠ first then .error (some [cpt], "type mismatch")
    else tcAllEqLoop first (cpt + 1) rest

/-- Loop of the `And`/`Or`/`Impl`/`Xor` type check: every type must be
`Bool` (`term.rs`, `Operator::type_check`). -/
def tcAllBoolLoop (cpt : Nat) :
    List Typ → Except (Option (List Nat) × String) Unit
  | [] => .ok ()
  | typ :: rest =>
    if typ ≠ Typ.Bool then .error (some [cpt], "expected Bool")
    else tcAllBoolLoop (cpt + 1) rest

/-- Returns the operator's return type if its arguments type check
(`term.rs`, `Operator::type_check`). The `String` part of an error is
abstracted to a short tag; the offending-position list is kept exactly
as the source computes it. -/
def type_check (op : Operator) (sig : List Typ) :
    Except (Option (List Nat) × String) Typ :=
  match op with
  | .Eq =>
    match sig with
    | [] => .ok .Bool
    | first :: rest => do
      _ ← tcAllEqLoop first 0 rest
      .ok .Bool
  | .Ite =>
    match sig with
    | [a, b, c] =>
      if a ≠ Typ.Bool then .error (some [0], "ite condition not Bool")
      else if b ≠ c then .error (some [1, 2], "ite branches incompatible")
      else .ok b
    | _ => .error (none, "ite expects 3 arguments")
  | .Not =>
    match sig with
    | [a] =>
      if a ≠ Typ.Bool then .error (some [0], "not argument not Bool")
      else .ok .Bool
    | _ => .error (none, "not expects 1 argument")
  | .And | .Or | .Impl | .Xor => do
    _ ← tcAllBoolLoop 0 sig
    .ok .Bool
  | .Distinct =>
    match sig with
    | [] => .ok .Bool
    | first :: rest => do
      _ ← tcAllEqLoop first 1 rest
      .ok .Bool
  | .Add | .Sub | .Mul | .Div =>
    match sig with
    | [] => .error (none, "applied to nothing")
    | first :: rest =>
      match first with
      | .Bool => .error (some [0], "expected Int or Real")
      | _ => do
        _ ← tcAllEqLoop first 1 rest
        .ok first
  | .Le | .Ge | .Lt | .Gt =>
    match sig with
    | [] => .error (none, "applied to nothing")
    | first :: rest =>
      match first with
      | .Bool => .error (some [0], "expected Int or Real")
      | _ => do
        _ ← tcAllEqLoop first 1 rest
        .ok .Bool

/-- The `Eq` evaluation (`term.rs`, `Operator::eval`, `Eq` arm):
structural comparison of every further argument to the first; never an
error. -/
def evalEq (args : List RCst) : RCst :=
  match args with
  | [] => .Bool true
  | first :: rest => .Bool (rest.all (· = first))

/-- The `And` scan (`term.rs`, `Operator::eval`, `And` arm): accumulate
the conjunction, abort with a type error at the first non-boolean. -/
def evalAndLoop (cpt : Nat) (res : Bool) :
    List RCst → Except EvalError RCst
  | [] => .ok (.Bool res)
  | arg :: rest =>
    match arg with
    | .Bool b => evalAndLoop (cpt + 1) (res && b) rest
    | a =>
      .error (.opTypeError .And a.typ .Bool (some (.foundForArg a (cpt + 1))))

/-- The `Or` scan (`term.rs`, `Operator::eval`, `Or` arm). Note: the
accumulator starts at `true` in the source (`let mut res = true`), which
this embedding reproduces verbatim. -/
def evalOrLoop (cpt : Nat) (res : Bool) :
    List RCst → Except EvalError RCst
  | [] => .ok (.Bool res)
  | arg :: rest =>
    match arg with
    | .Bool b => evalOrLoop (cpt + 1) (res || b) rest
    | a =>
      .error (.opTypeError .Or a.typ .Bool (some (.foundForArg a (cpt + 1))))

/-- The `Impl` scan (`term.rs`, `Operator::eval`, `Impl` arm): `so_far`
records whether a `true` argument has been seen; once it has, a `false`
argument returns the constant `false` immediately. -/
def evalImplLoop (cpt : Nat) (so_far : Bool) :
    List RCst → Except EvalError RCst
  | [] => .ok (.Bool true)
  | arg :: rest =>
    match arg with
    | .Bool b =>
      if so_far then
        if !b then .ok (.Bool false)
        else evalImplLoop (cpt + 1) so_far rest
      else evalImplLoop (cpt + 1) (so_far || b) rest
    | a =>
      .error (.opTypeError .Impl a.typ .Bool (some (.foundForArg a (cpt + 1))))

/-- The `Xor` scan (`term.rs`, `Operator::eval`, `Xor` arm): count the
`true` arguments; the result is `trues == 1`. -/
def evalXorLoop (cpt : Nat) (trues : Nat) :
    List RCst → Except EvalError RCst
  | [] => .ok (.Bool (trues = 1))
  | arg :: rest =>
    match arg with
    | .Bool b => evalXorLoop (cpt + 1) (if b then trues + 1 else trues) rest
    | a =>
      .error (.opTypeError .Xor a.typ .Bool (some (.foundForArg a (cpt + 1))))

/-- The arithmetic fold of `Add`/`Sub`/`Mul` (`term.rs`,
`Operator::eval`): left fold of `step` over the remaining arguments,
reporting a type error built from the two operand types on failure.
`errOp` is the operator named in the error (`Div` reports `Sub` in the
source, reproduced at the call site). -/
def evalFold (errOp : Operator) (step : RCst → RCst → Except RCst RCst)
    (res : RCst) : List RCst → Except EvalError RCst
  | [] => .ok res
  | arg :: rest =>
    match step res arg with
    | .ok cst => evalFold errOp step cst rest
    | .error cst => .error (.opTypeError errOp res.typ cst.typ none)

/-- The comparison evaluation scheme shared by `Le`/`Ge`/`Lt`/`Gt`
(`term.rs`, `Operator::eval`): exactly two same-typed numeric
constants, compared with the given relations. -/
def evalCmp (op : Operator) (icmp : Int → Int → Bool)
    (qcmp : Rat → Rat → Bool) (args : List RCst) : Except EvalError RCst :=
  match args with
  | [lhs, rhs] =>
    match lhs with
    | .Int a =>
      match rhs with
      | .Int b => .ok (.Bool (icmp a b))
      | r => .error (.opTypeError op .Int r.typ (some (.found r)))
    | .Rat a =>
      match rhs with
      | .Rat b => .ok (.Bool (qcmp a b))
      | r => .error (.opTypeError op .Rat r.typ (some (.found r)))
    | .Bool b =>
      .error (.opTypeError op Typ.Bool .Int (some (.orRat (.Bool b))))
  | _ => .error (.opArityError op args.length "2")

/-- Evaluates an operator on constant arguments (`term.rs`,
`Operator::eval`). The `factory` parameter of the source only builds
constant handles and is dropped: constants are embedded by their
payloads. The `unwrap` of the unary-negation case (unreachable for
type-checked input) is embedded as an explicit error. -/
def eval (op : Operator) (args : List RCst) : Except EvalError RCst :=
  match op with
  | .Eq => .ok (evalEq args)
  | .Ite =>
    if args.length ≠ 3 then .error (.opArityError .Ite args.length "3")
    else
      match args with
      | [c, t, e] =>
        match c with
        | .Bool true => .ok t
        | .Bool false => .ok e
        | a =>
          .error (.opTypeError .Ite a.typ .Bool (some .forFirstArg))
      | _ => .error (.opArityError .Ite args.length "3")
  | .Not =>
    match args with
    | [a] =>
      match a with
      | .Bool b => .ok (.Bool (!b))
      | a => .error (.opTypeError .Not a.typ .Bool none)
    | _ => .error (.opArityError .Not args.length "1")
  | .And => evalAndLoop 0 true args
  | .Or => evalOrLoop 0 true args
  | .Impl => evalImplLoop 0 false args
  | .Xor => evalXorLoop 0 0 args
  | .Distinct =>
    match evalEq args with
    | .Bool b => .ok (.Bool (!b))
    | _ => .error (.msg "evaluation of equality returned a non-boolean value")
  | .Add =>
    match args with
    | [] => .error (.opArityError .Add 0 "> 0")
    | first :: rest => evalFold .Add RCst.add first rest
  | .Sub =>
    match args with
    | [] => .error (.opArityError .Sub 0 "> 0")
    | [first] =>
      match first.neg with
      | some r => .ok r
      | none => .error (.msg "panicked: neg on non-numeric constant")
    | first :: rest => evalFold .Sub RCst.sub first rest
  | .Mul =>
    match args with
    | [] => .error (.opArityError .Mul 0 "> 0")
    | first :: rest => evalFold .Mul RCst.mul first rest
  | .Div =>
    match args with
    | [] => .error (.opArityError .Mul 0 "> 0")
    | first :: rest => evalFold .Sub RCst.div first rest
  | .Le => evalCmp .Le (· ≤ ·) (· ≤ ·) args
  | .Ge => evalCmp .Ge (· ≥ ·) (· ≥ ·) args
  | .Lt => evalCmp .Lt (· < ·) (· < ·) args
  | .Gt => evalCmp .Gt (· > ·) (· > ·) args

end Operator

/-! ## Offsets (`base.rs`) -/

/-- An offset (`base.rs`, `Offset`): a bounded step counter (`u16` in
the source). Embedded as `Nat`: only order, equality and successor are
used by the properties below, and no property exercises wraparound. -/
abbrev Offset := Nat

/-- The offset following this one (`base.rs`, `Offset::nxt`). -/
def Offset.nxt (o : Offset) : Offset := o + 1

/-- Two-state offset (`base.rs`, `Offset2`). -/
structure Offset2 where
  curr : Offset
  next : Offset
deriving DecidableEq, Repr

/-- Initial two-state offset (0, 1) (`base.rs`, `Offset2::init`). -/
def Offset2.init : Offset2 := ⟨0, 1⟩

/-- The two-state offset following this one (`base.rs`,
`Offset2::nxt`). -/
def Offset2.nxt (o : Offset2) : Offset2 := ⟨o.curr.nxt, o.next.nxt⟩

/-- Offset information attached to a parsed SMT-LIB 2 term (`base.rs`,
`Smt2Offset`). -/
inductive Smt2Offset where
  | No
  | One (o : Offset)
  | Two (lo hi : Offset)
deriving DecidableEq, Repr

/-- Termination measure for `Smt2Offset.merge`: the source's single
recursive call swaps a `(One, Two)` operand pair into `(Two, One)`. -/
def Smt2Offset.rank : Smt2Offset → Nat
  | .One _ => 1
  | _ => 0

/-- Merges two offsets if possible (`base.rs`, `Smt2Offset::merge`).
The source is written with one recursive call for the `(One, Two)`
case, swapping the operands; the embedding performs the same swap. -/
def Smt2Offset.merge (lhs rhs : Smt2Offset) : Option Smt2Offset :=
  if lhs = rhs then some rhs
  else
    match lhs, rhs with
    | .No, _ => some rhs
    | _, .No => some lhs
    | .One l, .One r =>
      if l < r then some (.Two l r)
      else if l = r then some rhs
      else some (.Two r l)
    | .Two lo hi, .One r =>
      if r ≠ lo ∧ r ≠ hi then none else some (.Two lo hi)
    | .Two _ _, .Two _ _ => none
    | .One l, .Two lo hi => merge (.Two lo hi) (.One l)
termination_by Smt2Offset.rank lhs
decreasing_by simp [Smt2Offset.rank]

/-! ## Terms (`term.rs`) and variables (`var.rs`) -/

/-- Symbols (`sym.rs`, not under `src/`). Modelled from the spec:
interned strings; interning affects only performance and printing, so a
symbol is embedded as its text. -/
abbrev Symb := String

/-- Underlying representation of variables (`var.rs`, not under
`src/`). Modelled from the spec and the patterns matched in `term.rs`:
a variable is either a plain (state-less) symbol or a state variable
`SVar(sym, state)` tagged current/next. -/
inductive RealVar where
  | Var (s : Symb)
  | SVar (s : Symb) (st : State)
deriving DecidableEq, Repr

/-- The symbol of a variable (`var.rs` `sym()`, not under `src/`).
Modelled from the spec: both variants carry their symbol. -/
def RealVar.sym : RealVar → Symb
  | .Var s => s
  | .SVar s _ => s

/-- Underlying representation of terms (`term.rs`, `RealTerm`).
`Term = HConsed<RealTerm>` handles are embedded by their payload trees;
the hash-consing table itself is embedded separately below (`HConsign`)
for the canonicalization properties. -/
inductive RealTerm where
  | V (v : RealVar)
  | C (c : RCst)
  | Op (op : Operator) (args : List RealTerm)
  | Forall (binds : List (Symb × Typ)) (body : RealTerm)
  | Exists (binds : List (Symb × Typ)) (body : RealTerm)
  | Let (binds : List (Symb × RealTerm)) (body : RealTerm)
  | App (f : Symb) (args : List RealTerm)

/-! Structural equality test on terms: the derived `PartialEq` of
`RealTerm` in `term.rs`, spelled out because `RealTerm` nests lists. -/

mutual

def beqT : RealTerm → RealTerm → Bool
  | .V v, .V v' => v = v'
  | .C c, .C c' => c = c'
  | .Op op args, .Op op' args' => op = op' && beqTList args args'
  | .Forall bs b, .Forall bs' b' => bs = bs' && beqT b b'
  | .Exists bs b, .Exists bs' b' => bs = bs' && beqT b b'
  | .Let bs b, .Let bs' b' => beqTBinds bs bs' && beqT b b'
  | .App f args, .App f' args' => f = f' && beqTList args args'
  | _, _ => false

def beqTList : List RealTerm → List RealTerm → Bool
  | [], [] => true
  | a :: as, b :: bs => beqT a b && beqTList as bs
  | _, _ => false

def beqTBinds : List (Symb × RealTerm) → List (Symb × RealTerm) → Bool
  | [], [] => true
  | (s, a) :: as, (s', b) :: bs => s = s' && beqT a b && beqTBinds as bs
  | _, _ => false

end

theorem beqTList_iff (as : List RealTerm)
    (ih : ∀ a ∈ as, ∀ b, beqT a b = true ↔ a = b) :
    ∀ bs, beqTList as bs = true ↔ as = bs := by
  induction as with
  | nil => intro bs; cases bs <;> simp [beqTList]
  | cons a as ihl =>
    intro bs
    cases bs with
    | nil => simp [beqTList]
    | cons b bs =>
      have h1 := ih a (by simp) b
      have h2 := ihl (fun x hx y => ih x (by simp [hx]) y) bs
      simp [beqTList, h1, h2]

theorem beqTBinds_iff (as : List (Symb × RealTerm))
    (ih : ∀ p ∈ as, ∀ b, beqT p.2 b = true ↔ p.2 = b) :
    ∀ bs, beqTBinds as bs = true ↔ as = bs := by
  induction as with
  | nil => intro bs; cases bs <;> simp [beqTBinds]
  | cons a as ihl =>
    intro bs
    cases bs with
    | nil => simp [beqTBinds]
    | cons b bs =>
      have h1 := ih a (by simp) b.2
      have h2 := ihl (fun x hx y => ih x (by simp [hx]) y) bs
      obtain ⟨s, t⟩ := a
      obtain ⟨s', t'⟩ := b
      simp [beqTBinds, h1, h2, Prod.ext_iff]
      try tauto

theorem beqT_iff (a b : RealTerm) : beqT a b = true ↔ a = b := by
  have main : ∀ n (a b : RealTerm), sizeOf a ≤ n →
      (beqT a b = true ↔ a = b) := by
    intro n
    induction n with
    | zero =>
      intro a b h
      exfalso
      cases a <;> simp at h
    | succ n ih =>
      intro a b hsz
      have hmem : ∀ (xs : List RealTerm), sizeOf xs ≤ n →
          ∀ x ∈ xs, ∀ y, beqT x y = true ↔ x = y := by
        intro xs hxs x hx y
        have h1 := List.sizeOf_lt_of_mem hx
        exact ih x y (by omega)
      have hmemb : ∀ (xs : List (Symb × RealTerm)), sizeOf xs ≤ n →
          ∀ p ∈ xs, ∀ y, beqT p.2 y = true ↔ p.2 = y := by
        intro xs hxs p hp y
        have h1 := List.sizeOf_lt_of_mem hp
        have h2 : sizeOf p.2 < sizeOf p := by
          obtain ⟨s, t⟩ := p
          simp
          try omega
        exact ih p.2 y (by omega)
      cases a <;> cases b
      all_goals try (simp [beqT]; done)
      case Op.Op op args op' args' =>
        have hl := beqTList_iff args (hmem args (by simp at hsz; omega)) args'
        simp only [beqT, Bool.and_eq_true, decide_eq_true_eq,
          RealTerm.Op.injEq]
        exact and_congr Iff.rfl hl
      case Forall.Forall bs body bs' body' =>
        have hb := ih body body' (by simp at hsz; omega)
        simp only [beqT, Bool.and_eq_true, decide_eq_true_eq,
          RealTerm.Forall.injEq]
        exact and_congr Iff.rfl hb
      case Exists.Exists bs body bs' body' =>
        have hb := ih body body' (by simp at hsz; omega)
        simp only [beqT, Bool.and_eq_true, decide_eq_true_eq,
          RealTerm.Exists.injEq]
        exact and_congr Iff.rfl hb
      case Let.Let bs body bs' body' =>
        have hl := beqTBinds_iff bs (hmemb bs (by simp at hsz; omega)) bs'
        have hb := ih body body' (by simp at hsz; omega)
        simp only [beqT, Bool.and_eq_true, RealTerm.Let.injEq]
        exact and_congr hl hb
      case App.App f args f' args' =>
        have hl := beqTList_iff args (hmem args (by simp at hsz; omega)) args'
        simp only [beqT, Bool.and_eq_true, decide_eq_true_eq,
          RealTerm.App.injEq]
        exact and_congr Iff.rfl hl
  exact main (sizeOf a) a b (le_refl _)

instance : DecidableEq RealTerm :=
  fun a b => decidable_of_iff (beqT a b = true) (beqT_iff a b)

/-! ## The hash-consing store (`hcons` crate, re-exported by `base.rs`)

The `hcons` crate itself is not under `src/`. Modelled from the spec:
"canonicalizing factory for expression nodes (hash consing)" — "given a
candidate node shape, return the canonical handle for that shape,
inserting it if unseen"; handles pair the shape with a unique identifier
and "equality and hashing are O(1) identity operations" on that
identifier. The hash map is embedded as an association list. -/

/-- A hash-consed handle: unique identifier plus the canonical shape. -/
structure HConsed (T : Type) where
  uid : Nat
  elm : T
deriving DecidableEq, Repr

/-- The canonicalization table: shapes with their identifiers, plus the
next fresh identifier. (The anonymous constructor is renamed so that
`HashConsign.mk` below can keep the source's method name.) -/
structure HashConsign (T : Type) where
  ofTable ::
  table : List (T × Nat)
  count : Nat
deriving DecidableEq, Repr

/-- Looks a shape up in the table. -/
def findUid [DecidableEq T] : List (T × Nat) → T → Option Nat
  | [], _ => none
  | (t', u) :: rest, t => if t' = t then some u else findUid rest t

/-- The empty store (`HashConsign::empty`). -/
def HashConsign.empty (T : Type) : HashConsign T := .ofTable [] 0

/-- Returns the canonical handle for the shape, inserting it if unseen
(`HashConsign::mk`). -/
def HashConsign.mk [DecidableEq T] (c : HashConsign T) (t : T) :
    HConsed T × HashConsign T :=
  match findUid c.table t with
  | some u => (⟨u, t⟩, c)
  | none => (⟨c.count, t⟩, .ofTable ((t, c.count) :: c.table) (c.count + 1))

/-- Builds a list of shapes through the store in sequence, returning
their handles; models an arbitrary sequence of store calls. -/
def HashConsign.mkList [DecidableEq T] (c : HashConsign T) :
    List T → List (HConsed T) × HashConsign T
  | [] => ([], c)
  | t :: ts =>
    let p := c.mk t
    let q := p.2.mkList ts
    (p.1 :: q.1, q.2)

/-- Store invariant: identifiers are below the counter, and the table is
injective in both components (one shape has one identifier, and one
identifier names one shape). -/
def HashConsign.Wf (c : HashConsign T) : Prop :=
  (∀ p ∈ c.table, p.2 < c.count) ∧
  (∀ p ∈ c.table, ∀ q ∈ c.table, (p.1 = q.1 ∨ p.2 = q.2) → p = q)

theorem findUid_mem [DecidableEq T] :
    ∀ (tbl : List (T × Nat)) (t : T) (u : Nat),
    findUid tbl t = some u → (t, u) ∈ tbl := by
  intro tbl
  induction tbl with
  | nil => simp [findUid]
  | cons p rest ih =>
    intro t u h
    obtain ⟨t', u'⟩ := p
    by_cases he : t' = t
    · subst he
      simp [findUid] at h
      simp [h]
    · simp [findUid, he] at h
      simp [ih t u h]

theorem findUid_none [DecidableEq T] :
    ∀ (tbl : List (T × Nat)) (t : T),
    findUid tbl t = none → ∀ u, (t, u) ∉ tbl := by
  intro tbl
  induction tbl with
  | nil => simp
  | cons p rest ih =>
    intro t h u hmem
    obtain ⟨t', u'⟩ := p
    by_cases he : t' = t
    · subst he
      simp [findUid] at h
    · simp [findUid, he] at h
      rcases List.mem_cons.1 hmem with heq | hmem'
      · exact he (by injection heq with h1 h2; exact h1.symm)
      · exact ih t h u hmem'

theorem HashConsign.wf_empty (T : Type) : (HashConsign.empty T).Wf := by
  constructor <;> simp [HashConsign.empty, HashConsign.Wf]

theorem HashConsign.mk_elm [DecidableEq T] (c : HashConsign T) (t : T) :
    (c.mk t).1.elm = t := by
  unfold HashConsign.mk
  cases h : findUid c.table t <;> simp

theorem HashConsign.mk_mem [DecidableEq T] (c : HashConsign T) (t : T) :
    (t, (c.mk t).1.uid) ∈ (c.mk t).2.table := by
  unfold HashConsign.mk
  cases h : findUid c.table t with
  | none => simp
  | some u => simpa using findUid_mem c.table t u h

theorem HashConsign.mk_mono [DecidableEq T] (c : HashConsign T) (t : T) :
    ∀ p ∈ c.table, p ∈ (c.mk t).2.table := by
  intro p hp
  unfold HashConsign.mk
  cases h : findUid c.table t <;> simp [hp]

theorem HashConsign.mk_wf [DecidableEq T] (c : HashConsign T) (t : T)
    (hwf : c.Wf) : (c.mk t).2.Wf := by
  obtain ⟨hbound, hinj⟩ := hwf
  unfold HashConsign.mk
  cases h : findUid c.table t with
  | some u => exact ⟨hbound, hinj⟩
  | none =>
    constructor
    · intro p hp
      simp at hp
      rcases hp with rfl | hp
      · simp
      · exact Nat.lt_succ_of_lt (hbound p hp)
    · intro p hp q hq hor
      simp at hp hq
      rcases hp with rfl | hp <;> rcases hq with rfl | hq
      · rfl
      · exfalso
        rcases hor with h1 | h2
        · refine findUid_none c.table t h q.2 ?_
          have : (t, q.2) = q := by
            have h1' : t = q.1 := by simpa using h1
            rw [h1']
          rw [this]
          exact hq
        · have := hbound q hq
          omega
      · exfalso
        rcases hor with h1 | h2
        · refine findUid_none c.table t h p.2 ?_
          have : (t, p.2) = p := by
            have h1' : t = p.1 := by simpa using h1.symm
            rw [h1']
          rw [this]
          exact hp
        · have := hbound p hp
          omega
      · exact hinj p hp q hq hor

theorem HashConsign.mkList_mono [DecidableEq T] :
    ∀ (ts : List T) (c : HashConsign T), ∀ p ∈ c.table,
    p ∈ (c.mkList ts).2.table := by
  intro ts
  induction ts with
  | nil => intro c p hp; simpa [HashConsign.mkList] using hp
  | cons t ts ih =>
    intro c p hp
    simp only [HashConsign.mkList]
    exact ih (c.mk t).2 p (c.mk_mono t p hp)

theorem HashConsign.mkList_wf [DecidableEq T] :
    ∀ (ts : List T) (c : HashConsign T), c.Wf → (c.mkList ts).2.Wf := by
  intro ts
  induction ts with
  | nil => intro c h; simpa [HashConsign.mkList] using h
  | cons t ts ih =>
    intro c h
    simp only [HashConsign.mkList]
    exact ih (c.mk t).2 (c.mk_wf t h)

theorem HashConsign.mkList_elm [DecidableEq T] :
    ∀ (ts : List T) (c : HashConsign T),
    ((c.mkList ts).1.map HConsed.elm) = ts := by
  intro ts
  induction ts with
  | nil => intro c; simp [HashConsign.mkList]
  | cons t ts ih =>
    intro c
    simp [HashConsign.mkList, c.mk_elm t, ih]

theorem HashConsign.mkList_handles [DecidableEq T] :
    ∀ (ts : List T) (c : HashConsign T), ∀ h ∈ (c.mkList ts).1,
    (h.elm, h.uid) ∈ (c.mkList ts).2.table := by
  intro ts
  induction ts with
  | nil => simp [HashConsign.mkList]
  | cons t ts ih =>
    intro c h hmem
    simp only [HashConsign.mkList] at hmem ⊢
    rcases List.mem_cons.1 hmem with rfl | hmem'
    · have h1 := c.mk_mem t
      have h2 := c.mk_elm t
      rw [h2]
      exact HashConsign.mkList_mono ts (c.mk t).2 _ h1
    · exact ih (c.mk t).2 h hmem'

/-! ## Term store front end (`term.rs`) -/

/-- The hash-cons table for terms (`term.rs`, `TermConsign`;
`base.rs` wraps it in `Arc<Mutex<...>>`, which only provides the
locking discussed in spec §5 and is transparent to the algebra). -/
abbrev TermConsign := HashConsign RealTerm

/-- `VariableMaker::var` (`term.rs`): wraps a variable. -/
def TermConsign.var (c : TermConsign) (v : RealVar) :
    HConsed RealTerm × TermConsign :=
  c.mk (.V v)

/-- `CstMaker::cst` (`term.rs`): wraps a constant. -/
def TermConsign.cst (c : TermConsign) (k : RCst) :
    HConsed RealTerm × TermConsign :=
  c.mk (.C k)

/-- `OpMaker::op` (`term.rs`): builds an operator application. The
source only shrinks the vector and hands the shape to the consign —
there is no emptiness check. -/
def TermConsign.op (c : TermConsign) (op : Operator) (args : List RealTerm) :
    HConsed RealTerm × TermConsign :=
  c.mk (.Op op args)

/-- `AppMaker::app` (`term.rs`): builds a function-symbol application.
No emptiness check either. -/
def TermConsign.app (c : TermConsign) (f : Symb) (args : List RealTerm) :
    HConsed RealTerm × TermConsign :=
  c.mk (.App f args)

/-- `BindMaker::forall` (`term.rs`): an empty binding list collapses to
the body. The body handle is passed through unchanged in that case, so
the collapse result is the body's canonical handle. -/
def TermConsign.forall_b (c : TermConsign) (bind : List (Symb × Typ))
    (body : HConsed RealTerm) : HConsed RealTerm × TermConsign :=
  if bind.isEmpty then (body, c) else c.mk (.Forall bind body.elm)

/-- `BindMaker::exists` (`term.rs`): same collapse rule. -/
def TermConsign.exists_b (c : TermConsign) (bind : List (Symb × Typ))
    (body : HConsed RealTerm) : HConsed RealTerm × TermConsign :=
  if bind.isEmpty then (body, c) else c.mk (.Exists bind body.elm)

/-- `BindMaker::let_b` (`term.rs`): same collapse rule. -/
def TermConsign.let_b (c : TermConsign) (bind : List (Symb × RealTerm))
    (body : HConsed RealTerm) : HConsed RealTerm × TermConsign :=
  if bind.isEmpty then (body, c) else c.mk (.Let bind body.elm)

/-- C1: for every pair of terms built through the Term Store (any
sequence of shapes canonicalized in order, starting from the empty
store), handle equality is identifier equality, and it holds exactly
when the two requested shapes are structurally equal: the same shape
yields the identical handle, different shapes yield distinct
handles. -/
theorem C1_term_store_canonicalization
    (ts : List RealTerm) (i j : Nat) (hi hj : HConsed RealTerm)
    (h1 : ((HashConsign.empty RealTerm).mkList ts).1[i]? = some hi)
    (h2 : ((HashConsign.empty RealTerm).mkList ts).1[j]? = some hj) :
    (hi.uid = hj.uid ↔ hi = hj) ∧ (hi = hj ↔ ts[i]? = ts[j]?) := by
  have hwf := HashConsign.mkList_wf ts (HashConsign.empty RealTerm)
    (HashConsign.wf_empty RealTerm)
  have hmi : hi ∈ ((HashConsign.empty RealTerm).mkList ts).1 := by
    rcases List.getElem?_eq_some.1 h1 with ⟨hb, he⟩
    exact he ▸ List.getElem_mem hb
  have hmj : hj ∈ ((HashConsign.empty RealTerm).mkList ts).1 := by
    rcases List.getElem?_eq_some.1 h2 with ⟨hb, he⟩
    exact he ▸ List.getElem_mem hb
  have t1 := HashConsign.mkList_handles ts (HashConsign.empty RealTerm) hi hmi
  have t2 := HashConsign.mkList_handles ts (HashConsign.empty RealTerm) hj hmj
  obtain ⟨_, hinj⟩ := hwf
  have key : hi.uid = hj.uid ↔ hi.elm = hj.elm := by
    constructor
    · intro h
      have := hinj _ t1 _ t2 (Or.inr h)
      injection this
    · intro h
      have := hinj _ t1 _ t2 (Or.inl h)
      injection this
  have hts : ∀ (k : Nat) (hk : HConsed RealTerm),
      ((HashConsign.empty RealTerm).mkList ts).1[k]? = some hk →
      ts[k]? = some hk.elm := by
    intro k hk h
    have hmap := HashConsign.mkList_elm ts (HashConsign.empty RealTerm)
    calc ts[k]? = (((HashConsign.empty RealTerm).mkList ts).1.map
          HConsed.elm)[k]? := by rw [hmap]
    _ = some hk.elm := by rw [List.getElem?_map, h]; rfl
  constructor
  · constructor
    · intro h
      have he := key.1 h
      cases hi
      cases hj
      simp_all
    · intro h
      rw [h]
  · constructor
    · intro h
      rw [hts i hi h1, hts j hj h2, h]
    · intro h
      have : some hi.elm = some hj.elm := by
        rw [← hts i hi h1, ← hts j hj h2, h]
      have he : hi.elm = hj.elm := by injection this
      cases hi
      cases hj
      simp_all [key.2 he]

/-- Witness for C1 at a concrete build sequence: the shape `x` built
twice (positions 0 and 2) yields the identical handle, and it differs
from the handle of the constant `true` (position 1). -/
theorem C1_term_store_canonicalization_witness :
    ((⟨0, .V (.Var "x")⟩ : HConsed RealTerm).uid =
        (⟨0, .V (.Var "x")⟩ : HConsed RealTerm).uid ↔
      (⟨0, .V (.Var "x")⟩ : HConsed RealTerm) = ⟨0, .V (.Var "x")⟩) ∧
    ((⟨0, .V (.Var "x")⟩ : HConsed RealTerm) = ⟨0, .V (.Var "x")⟩ ↔
      ([RealTerm.V (.Var "x"), .C (.Bool true), .V (.Var "x")])[0]? =
      ([RealTerm.V (.Var "x"), .C (.Bool true), .V (.Var "x")])[2]?) :=
  C1_term_store_canonicalization
    [.V (.Var "x"), .C (.Bool true), .V (.Var "x")] 0 2
    ⟨0, .V (.Var "x")⟩ ⟨0, .V (.Var "x")⟩ (by decide) (by decide)

theorem evalXorLoop_bools (bs : List Bool) :
    ∀ (cpt trues : Nat),
    Operator.evalXorLoop cpt trues (bs.map RCst.Bool) =
      .ok (.Bool (trues + bs.count true = 1)) := by
  induction bs with
  | nil => intro cpt trues; simp [Operator.evalXorLoop]
  | cons b bs ih =>
    intro cpt trues
    cases b <;>
      (simp [Operator.evalXorLoop, ih, List.count_cons]
       try omega)

/-- C10: on boolean constant arguments, `Xor` evaluates to `true`
exactly when exactly one argument is `true` (an exactly-one test, not
odd parity); in particular `Xor(true, true, true)` evaluates to
`false`. -/
theorem C10_xor_exactly_one :
    (∀ bs : List Bool,
      Operator.eval .Xor (bs.map RCst.Bool) =
        .ok (.Bool (bs.count true = 1))) ∧
    Operator.eval .Xor [.Bool true, .Bool true, .Bool true] =
      .ok (.Bool false) := by
  constructor
  · intro bs
    have h := evalXorLoop_bools bs 0 0
    simpa [Operator.eval] using h
  · rfl

/-- C7: the merge table of `Smt2Offset::merge`: equal offsets merge to
themselves; `No` is neutral; two distinct `One`s make an ordered `Two`;
`Two(lo,hi)` absorbs `One(x)` exactly when `x` is one of its ends;
distinct `Two`s never merge — with the six concrete instances of the
spec's merge table. -/
theorem C7_offset_merge :
    (∀ a b : Smt2Offset, a = b → a.merge b = some b) ∧
    (∀ a : Smt2Offset, Smt2Offset.No.merge a = some a ∧
      a.merge .No = some a) ∧
    (∀ x y : Offset, x ≠ y →
      (Smt2Offset.One x).merge (.One y) =
        some (.Two (min x y) (max x y))) ∧
    (∀ lo hi x : Offset,
      (Smt2Offset.Two lo hi).merge (.One x) =
        if x = lo ∨ x = hi then some (.Two lo hi) else none) ∧
    (∀ lo hi lo' hi' : Offset, ¬(lo = lo' ∧ hi = hi') →
      (Smt2Offset.Two lo hi).merge (.Two lo' hi') = none) ∧
    (Smt2Offset.No.merge (.One 3) = some (.One 3) ∧
     (Smt2Offset.One 1).merge (.One 1) = some (.One 1) ∧
     (Smt2Offset.One 1).merge (.One 2) = some (.Two 1 2) ∧
     (Smt2Offset.Two 1 2).merge (.One 1) = some (.Two 1 2) ∧
     (Smt2Offset.Two 1 2).merge (.One 3) = none ∧
     (Smt2Offset.Two 1 2).merge (.Two 3 4) = none) := by
  refine ⟨?_, ?_, ?_, ?_, ?_, ?_⟩
  · intro a b h
    subst h
    rw [Smt2Offset.merge.eq_def]
    simp
  · intro a
    constructor
    · rw [Smt2Offset.merge.eq_def]
      cases a <;> simp
    · rw [Smt2Offset.merge.eq_def]
      cases a <;> simp
  · intro x y h
    rw [Smt2Offset.merge.eq_def]
    rcases Nat.lt_or_ge x y with hlt | hge
    · simp [h, hlt, Nat.min_eq_left (Nat.le_of_lt hlt),
        Nat.max_eq_right (Nat.le_of_lt hlt)]
    · have hgt : y < x := Nat.lt_of_le_of_ne hge (fun hh => h hh.symm)
      simp [h, Nat.not_lt.2 hge, Nat.min_eq_right (Nat.le_of_lt hgt),
        Nat.max_eq_left (Nat.le_of_lt hgt)]
  · intro lo hi x
    rw [Smt2Offset.merge.eq_def]
    by_cases hx : x = lo ∨ x = hi
    · simp [hx]
      tauto
    · push_neg at hx
      simp [hx, hx.1, hx.2]
  · intro lo hi lo' hi' h
    rw [Smt2Offset.merge.eq_def]
    have hne : ¬(Smt2Offset.Two lo hi = Smt2Offset.Two lo' hi') := by
      simp
      intro h1 h2
      exact h ⟨h1, h2⟩
    simp [hne]
  · refine ⟨?_, ?_, ?_, ?_, ?_, ?_⟩ <;> (rw [Smt2Offset.merge.eq_def]; simp)

/-- Witness for C7 at concrete offsets: equal-merge, the `Two`/`One`
absorption test at both an end and a non-end, and a distinct
`Two`/`Two` failure. -/
theorem C7_offset_merge_witness :
    (Smt2Offset.One 5).merge (.One 5) = some (.One 5) ∧
    (Smt2Offset.One 1).merge (.One 2) = some (.Two (min 1 2) (max 1 2)) ∧
    (Smt2Offset.Two 1 2).merge (.Two 3 4) = none :=
  ⟨C7_offset_merge.1 (.One 5) (.One 5) rfl,
   C7_offset_merge.2.2.1 1 2 (by decide),
   C7_offset_merge.2.2.2.2.1 1 2 3 4 (by decide)⟩

/-! ## Boolean-scan lemmas for the n-ary boolean operators -/

theorem RCst.typ_bool_iff (c : RCst) : c.typ = .Bool ↔ ∃ b, c = .Bool b := by
  cases c <;> simp [RCst.typ]

theorem evalAndLoop_bools (bs : List Bool) :
    ∀ (cpt : Nat) (res : Bool),
    Operator.evalAndLoop cpt res (bs.map RCst.Bool) =
      .ok (.Bool (res && bs.all id)) := by
  induction bs with
  | nil => intro cpt res; simp [Operator.evalAndLoop]
  | cons b bs ih =>
    intro cpt res
    simp [Operator.evalAndLoop, ih, Bool.and_assoc]

theorem evalOrLoop_bools (bs : List Bool) :
    ∀ (cpt : Nat) (res : Bool),
    Operator.evalOrLoop cpt res (bs.map RCst.Bool) =
      .ok (.Bool (res || bs.any id)) := by
  induction bs with
  | nil => intro cpt res; simp [Operator.evalOrLoop]
  | cons b bs ih =>
    intro cpt res
    simp [Operator.evalOrLoop, ih, Bool.or_assoc]

theorem evalImplLoop_bools (bs : List Bool) :
    ∀ (cpt : Nat) (so_far : Bool), ∃ b : Bool,
    Operator.evalImplLoop cpt so_far (bs.map RCst.Bool) = .ok (.Bool b) := by
  induction bs with
  | nil => intro cpt so_far; exact ⟨true, by simp [Operator.evalImplLoop]⟩
  | cons b bs ih =>
    intro cpt so_far
    cases hso : so_far <;> cases hb : b
    · obtain ⟨r, hr⟩ := ih (cpt + 1) false
      exact ⟨r, by simpa [Operator.evalImplLoop] using hr⟩
    · obtain ⟨r, hr⟩ := ih (cpt + 1) true
      exact ⟨r, by simpa [Operator.evalImplLoop] using hr⟩
    · exact ⟨false, by simp [Operator.evalImplLoop]⟩
    · obtain ⟨r, hr⟩ := ih (cpt + 1) true
      exact ⟨r, by simpa [Operator.evalImplLoop] using hr⟩

theorem evalAndLoop_error (bs : List Bool) :
    ∀ (cpt : Nat) (res : Bool) (c : RCst) (rest : List RCst),
    c.typ ≠ .Bool →
    Operator.evalAndLoop cpt res (bs.map RCst.Bool ++ c :: rest) =
      .error (.opTypeError .And c.typ .Bool
        (some (.foundForArg c (cpt + bs.length + 1)))) := by
  induction bs with
  | nil =>
    intro cpt res c rest hc
    cases c <;> simp [RCst.typ] at hc <;> simp [Operator.evalAndLoop]
  | cons b bs ih =>
    intro cpt res c rest hc
    have h := ih (cpt + 1) (res && b) c rest hc
    simp only [List.map_cons, List.cons_append, Operator.evalAndLoop,
      List.append_eq]
    rw [h]
    have : cpt + 1 + bs.length + 1 = cpt + (bs.length + 1) + 1 := by omega
    rw [this]
    simp

theorem evalOrLoop_error (bs : List Bool) :
    ∀ (cpt : Nat) (res : Bool) (c : RCst) (rest : List RCst),
    c.typ ≠ .Bool →
    Operator.evalOrLoop cpt res (bs.map RCst.Bool ++ c :: rest) =
      .error (.opTypeError .Or c.typ .Bool
        (some (.foundForArg c (cpt + bs.length + 1)))) := by
  induction bs with
  | nil =>
    intro cpt res c rest hc
    cases c <;> simp [RCst.typ] at hc <;> simp [Operator.evalOrLoop]
  | cons b bs ih =>
    intro cpt res c rest hc
    have h := ih (cpt + 1) (res || b) c rest hc
    simp only [List.map_cons, List.cons_append, Operator.evalOrLoop,
      List.append_eq]
    rw [h]
    have : cpt + 1 + bs.length + 1 = cpt + (bs.length + 1) + 1 := by omega
    rw [this]
    simp

theorem evalXorLoop_error (bs : List Bool) :
    ∀ (cpt trues : Nat) (c : RCst) (rest : List RCst),
    c.typ ≠ .Bool →
    Operator.evalXorLoop cpt trues (bs.map RCst.Bool ++ c :: rest) =
      .error (.opTypeError .Xor c.typ .Bool
        (some (.foundForArg c (cpt + bs.length + 1)))) := by
  induction bs with
  | nil =>
    intro cpt trues c rest hc
    cases c <;> simp [RCst.typ] at hc <;> simp [Operator.evalXorLoop]
  | cons b bs ih =>
    intro cpt trues c rest hc
    have h := ih (cpt + 1) (if b then trues + 1 else trues) c rest hc
    simp only [List.map_cons, List.cons_append, Operator.evalXorLoop,
      List.append_eq]
    rw [h]
    have : cpt + 1 + bs.length + 1 = cpt + (bs.length + 1) + 1 := by omega
    rw [this]
    simp

/-- State-aware cut condition of the `Impl` scan: starting with flag
`so_far`, the loop will return the constant `false` somewhere inside
the boolean prefix `bs`. -/
def implCut (so_far : Bool) (bs : List Bool) : Prop :=
  (so_far = true ∧ false ∈ bs) ∨
  ∃ i j : Nat, i < j ∧ bs[i]? = some true ∧ bs[j]? = some false

theorem implCut_false_iff (bs : List Bool) :
    implCut false bs ↔
    ∃ i j : Nat, i < j ∧ bs[i]? = some true ∧ bs[j]? = some false := by
  simp [implCut]

theorem evalImplLoop_cut (bs : List Bool) :
    ∀ (cpt : Nat) (so_far : Bool) (tail : List RCst), implCut so_far bs →
    Operator.evalImplLoop cpt so_far (bs.map RCst.Bool ++ tail) =
      .ok (.Bool false) := by
  induction bs with
  | nil =>
    intro cpt so_far tail hcut
    exfalso
    rcases hcut with ⟨_, h⟩ | ⟨i, j, _, h, _⟩
    · simp at h
    · simp at h
  | cons b bs ih =>
    intro cpt so_far tail hcut
    cases hso : so_far <;> cases hb : b <;> subst hso hb
    · -- so_far = false, b = false: the witness pair sits in bs
      have : implCut false bs := by
        rcases hcut with ⟨h, _⟩ | ⟨i, j, hij, hi, hj⟩
        · simp at h
        · match i, hi with
          | 0, hi => simp at hi
          | i + 1, hi =>
            match j, hij, hj with
            | j + 1, hij, hj =>
              exact Or.inr ⟨i, j, by omega, by simpa using hi, by simpa using hj⟩
      simpa [Operator.evalImplLoop] using ih (cpt + 1) false tail this
    · -- so_far = false, b = true: flag switches on; a false must follow
      have : implCut true bs := by
        rcases hcut with ⟨h, _⟩ | ⟨i, j, hij, hi, hj⟩
        · simp at h
        · match j, hj with
          | 0, hj => omega
          | j + 1, hj =>
            have : bs[j]? = some false := by simpa using hj
            rcases List.getElem?_eq_some.1 this with ⟨hb, he⟩
            exact Or.inl ⟨rfl, he ▸ List.getElem_mem hb⟩
      simpa [Operator.evalImplLoop] using ih (cpt + 1) true tail this
    · -- so_far = true, b = false: immediate return
      simp [Operator.evalImplLoop]
    · -- so_far = true, b = true: a false remains in bs
      have : implCut true bs := by
        rcases hcut with ⟨_, h⟩ | ⟨i, j, hij, hi, hj⟩
        · simp at h
          exact Or.inl ⟨rfl, h⟩
        · match j, hj with
          | 0, hj => simp at hj
          | j + 1, hj =>
            have : bs[j]? = some false := by simpa using hj
            rcases List.getElem?_eq_some.1 this with ⟨hb, he⟩
            exact Or.inl ⟨rfl, he ▸ List.getElem_mem hb⟩
      simpa [Operator.evalImplLoop] using ih (cpt + 1) true tail this

theorem evalImplLoop_error (bs : List Bool) :
    ∀ (cpt : Nat) (so_far : Bool) (c : RCst) (rest : List RCst),
    c.typ ≠ .Bool → ¬implCut so_far bs →
    Operator.evalImplLoop cpt so_far (bs.map RCst.Bool ++ c :: rest) =
      .error (.opTypeError .Impl c.typ .Bool
        (some (.foundForArg c (cpt + bs.length + 1)))) := by
  induction bs with
  | nil =>
    intro cpt so_far c rest hc _
    cases c <;> simp [RCst.typ] at hc <;> cases so_far <;>
      simp [Operator.evalImplLoop]
  | cons b bs ih =>
    intro cpt so_far c rest hc hcut
    have harith : cpt + 1 + bs.length + 1 = cpt + (b :: bs).length + 1 := by
      simp
      omega
    cases hso : so_far <;> cases hb : b <;> subst hso hb
    · -- so_far = false, b = false
      have hnc : ¬implCut false bs := by
        intro hcut'
        apply hcut
        rcases hcut' with ⟨h, _⟩ | ⟨i, j, hij, hi, hj⟩
        · simp at h
        · exact Or.inr ⟨i + 1, j + 1, by omega, by simpa using hi,
            by simpa using hj⟩
      have h := ih (cpt + 1) false c rest hc hnc
      rw [harith] at h
      simpa [Operator.evalImplLoop] using h
    · -- so_far = false, b = true
      have hnc : ¬implCut true bs := by
        intro hcut'
        apply hcut
        rcases hcut' with ⟨_, h⟩ | ⟨i, j, hij, hi, hj⟩
        · rcases List.getElem_of_mem h with ⟨k, hk, he⟩
          exact Or.inr ⟨0, k + 1, by omega, by simp,
            by simpa using List.getElem?_eq_some.2 ⟨hk, he⟩⟩
        · exact Or.inr ⟨i + 1, j + 1, by omega, by simpa using hi,
            by simpa using hj⟩
      have h := ih (cpt + 1) true c rest hc hnc
      rw [harith] at h
      simpa [Operator.evalImplLoop] using h
    · -- so_far = true, b = false: this is a cut, contradiction
      exfalso
      exact hcut (Or.inl ⟨rfl, by simp⟩)
    · -- so_far = true, b = true
      have hnc : ¬implCut true bs := by
        intro hcut'
        apply hcut
        rcases hcut' with ⟨_, h⟩ | ⟨i, j, hij, hi, hj⟩
        · exact Or.inl ⟨rfl, by simp [h]⟩
        · exact Or.inr ⟨i + 1, j + 1, by omega, by simpa using hi,
            by simpa using hj⟩
      have h := ih (cpt + 1) true c rest hc hnc
      rw [harith] at h
      simpa [Operator.evalImplLoop] using h

/-- Counterexample to C2 as stated: `Impl(true, false, 0)` contains the
non-boolean constant `0` at position 3, yet evaluation returns the
boolean constant `false` — no type error is reported, because the
`Impl` scan returns as soon as a false argument follows an earlier true
argument. -/
theorem C2_counterexample :
    (RCst.Int 0).typ ≠ Typ.Bool ∧
    Operator.eval .Impl [.Bool true, .Bool false, .Int 0] =
      .ok (.Bool false) := by
  constructor
  · decide
  · rfl

/-- C2 (amended): `And`, `Or` and `Xor` scan every argument without
short-circuiting and report a type error at the position of the first
non-boolean argument even when an earlier boolean argument already
determines the result. `Impl`, however, returns the constant `false`
(no error) as soon as a false argument follows an earlier true
argument, even when a later argument is non-boolean; in every other
case `Impl` too reports a type error at the first non-boolean
argument's position. -/
theorem C2_noshortcircuit_scan :
    (∀ op : Operator, op = .And ∨ op = .Or ∨ op = .Xor →
      ∀ (bs : List Bool) (c : RCst) (rest : List RCst), c.typ ≠ .Bool →
      Operator.eval op (bs.map RCst.Bool ++ c :: rest) =
        .error (.opTypeError op c.typ .Bool
          (some (.foundForArg c (bs.length + 1))))) ∧
    (∀ (bs : List Bool) (tail : List RCst),
      (∃ i j : Nat, i < j ∧ bs[i]? = some true ∧ bs[j]? = some false) →
      Operator.eval .Impl (bs.map RCst.Bool ++ tail) = .ok (.Bool false)) ∧
    (∀ (bs : List Bool) (c : RCst) (rest : List RCst), c.typ ≠ .Bool →
      ¬(∃ i j : Nat, i < j ∧ bs[i]? = some true ∧ bs[j]? = some false) →
      Operator.eval .Impl (bs.map RCst.Bool ++ c :: rest) =
        .error (.opTypeError .Impl c.typ .Bool
          (some (.foundForArg c (bs.length + 1))))) := by
  refine ⟨?_, ?_, ?_⟩
  · intro op hop bs c rest hc
    rcases hop with rfl | rfl | rfl
    · simpa [Operator.eval] using evalAndLoop_error bs 0 true c rest hc
    · simpa [Operator.eval] using evalOrLoop_error bs 0 true c rest hc
    · simpa [Operator.eval] using evalXorLoop_error bs 0 0 c rest hc
  · intro bs tail hex
    have := evalImplLoop_cut bs 0 false tail ((implCut_false_iff bs).2 hex)
    simpa [Operator.eval] using this
  · intro bs c rest hc hnex
    have := evalImplLoop_error bs 0 false c rest hc
      (fun hcut => hnex ((implCut_false_iff bs).1 hcut))
    simpa [Operator.eval] using this

/-- Witness for C2 (amended) at concrete inputs:
`And(true, "1")` errors at position 2 although the first argument is
boolean; `Impl(true, false, 0)` yields `false`;
`Impl(true, true, 0)` errors at position 3. -/
theorem C2_noshortcircuit_scan_witness :
    Operator.eval .And [.Bool true, .Int 1] =
      .error (.opTypeError .And Typ.Int .Bool
        (some (.foundForArg (.Int 1) 2))) ∧
    Operator.eval .Impl [.Bool true, .Bool false, .Int 0] =
      .ok (.Bool false) ∧
    Operator.eval .Impl [.Bool true, .Bool true, .Int 0] =
      .error (.opTypeError .Impl Typ.Int .Bool
        (some (.foundForArg (.Int 0) 3))) :=
  ⟨by
    have := C2_noshortcircuit_scan.1 .And (Or.inl rfl) [true] (.Int 1) []
      (by decide)
    simpa using this,
   C2_noshortcircuit_scan.2.1 [true, false] [.Int 0]
     ⟨0, 1, by decide, by decide, by decide⟩,
   by
    have := C2_noshortcircuit_scan.2.2 [true, true] (.Int 0) [] (by decide)
      (by
        rintro ⟨i, j, hij, hi, hj⟩
        match j, hj with
        | 0, hj => omega
        | 1, hj => simp at hj
        | n + 2, hj => simp at hj)
    simpa using this⟩

theorem tcAllEqLoop_ok_iff (first : Typ) :
    ∀ (rest : List Typ) (cpt : Nat),
    Operator.tcAllEqLoop first cpt rest = .ok () ↔ ∀ t ∈ rest, t = first := by
  intro rest
  induction rest with
  | nil => intro cpt; simp [Operator.tcAllEqLoop]
  | cons t rest ih =>
    intro cpt
    by_cases h : t = first
    · simp [Operator.tcAllEqLoop, h, ih (cpt + 1)]
    · simp [Operator.tcAllEqLoop, h]

/-- Counterexample to C4 as stated: `type_check` of the comparison
operators does not check the argument count — a single `Int` argument
and three `Int` arguments both type-check successfully to `Bool`,
although the claim requires exactly 2 arguments to be accepted. -/
theorem C4_counterexample :
    Operator.type_check .Le [.Int] = .ok .Bool ∧
    Operator.type_check .Lt [.Int, .Int, .Int] = .ok .Bool := by
  constructor <;> rfl

/-- C4 (amended): `type_check` of `Le`/`Ge`/`Lt`/`Gt` succeeds exactly
when the argument list is nonempty, its first type is numeric (`Int` or
`Rat`), and every argument equals the first — the argument count is
*not* restricted to 2 (that restriction is enforced only by `eval`);
every success returns `Bool`; zero arguments and cross-typed numeric
arguments are rejected. -/
theorem C4_cmp_type_check (op : Operator)
    (hop : op = .Le ∨ op = .Ge ∨ op = .Lt ∨ op = .Gt) (sig : List Typ) :
    ((∃ ty, Operator.type_check op sig = .ok ty) ↔
      ∃ t0 rest, sig = t0 :: rest ∧ (t0 = .Int ∨ t0 = .Rat) ∧
        ∀ t ∈ rest, t = t0) ∧
    (∀ ty, Operator.type_check op sig = .ok ty → ty = .Bool) := by
  cases sig with
  | nil =>
    have hbody : Operator.type_check op [] =
        .error (none, "applied to nothing") := by
      rcases hop with rfl | rfl | rfl | rfl <;> rfl
    rw [hbody]
    simp
  | cons t0 rest =>
    cases t0 with
    | Bool =>
      have hbody : Operator.type_check op (Typ.Bool :: rest) =
          .error (some [0], "expected Int or Real") := by
        rcases hop with rfl | rfl | rfl | rfl <;> rfl
      rw [hbody]
      simp
    | Int =>
      have hbody : Operator.type_check op (Typ.Int :: rest) =
          (do
            _ ← Operator.tcAllEqLoop .Int 1 rest
            .ok .Bool) := by
        rcases hop with rfl | rfl | rfl | rfl <;> rfl
      rw [hbody]
      cases h : Operator.tcAllEqLoop .Int 1 rest with
      | ok u =>
        have hall := (tcAllEqLoop_ok_iff .Int rest 1).1 (by simp [h])
        constructor
        · constructor
          · intro _
            exact ⟨.Int, rest, rfl, Or.inl rfl, hall⟩
          · intro _
            exact ⟨.Bool, rfl⟩
        · intro ty hty
          exact (Except.ok.inj hty).symm
      | error e =>
        constructor
        · constructor
          · rintro ⟨ty, hty⟩
            exact Except.noConfusion hty
          · rintro ⟨t0', rest', heq, _, hall⟩
            injection heq with h1 h2
            subst h1 h2
            rw [(tcAllEqLoop_ok_iff .Int rest 1).2 hall] at h
            exact Except.noConfusion h
        · intro ty hty
          exact Except.noConfusion hty
    | Rat =>
      have hbody : Operator.type_check op (Typ.Rat :: rest) =
          (do
            _ ← Operator.tcAllEqLoop .Rat 1 rest
            .ok .Bool) := by
        rcases hop with rfl | rfl | rfl | rfl <;> rfl
      rw [hbody]
      cases h : Operator.tcAllEqLoop .Rat 1 rest with
      | ok u =>
        have hall := (tcAllEqLoop_ok_iff .Rat rest 1).1 (by simp [h])
        constructor
        · constructor
          · intro _
            exact ⟨.Rat, rest, rfl, Or.inr rfl, hall⟩
          · intro _
            exact ⟨.Bool, rfl⟩
        · intro ty hty
          exact (Except.ok.inj hty).symm
      | error e =>
        constructor
        · constructor
          · rintro ⟨ty, hty⟩
            exact Except.noConfusion hty
          · rintro ⟨t0', rest', heq, _, hall⟩
            injection heq with h1 h2
            subst h1 h2
            rw [(tcAllEqLoop_ok_iff .Rat rest 1).2 hall] at h
            exact Except.noConfusion h
        · intro ty hty
          exact Except.noConfusion hty

/-- Witness for C4 (amended): `Ge` on `[Rat, Rat]` type-checks (and any
success is `Bool`); the success-characterization applied at the
two-argument same-type list. -/
theorem C4_cmp_type_check_witness :
    ((∃ ty, Operator.type_check .Ge [.Rat, .Rat] = .ok ty) ↔
      ∃ t0 rest, [Typ.Rat, Typ.Rat] = t0 :: rest ∧
        (t0 = .Int ∨ t0 = .Rat) ∧ ∀ t ∈ rest, t = t0) ∧
    (∀ ty, Operator.type_check .Ge [.Rat, .Rat] = .ok ty → ty = .Bool) :=
  C4_cmp_type_check .Ge (Or.inr (Or.inl rfl)) [.Rat, .Rat]

/-! ## Type-check / eval agreement infrastructure (C3) -/

theorem tcAllBoolLoop_ok_iff :
    ∀ (l : List Typ) (cpt : Nat),
    Operator.tcAllBoolLoop cpt l = .ok () ↔ ∀ t ∈ l, t = .Bool := by
  intro l
  induction l with
  | nil => intro cpt; simp [Operator.tcAllBoolLoop]
  | cons t l ih =>
    intro cpt
    by_cases h : t = Typ.Bool
    · simp [Operator.tcAllBoolLoop, h, ih (cpt + 1)]
    · simp [Operator.tcAllBoolLoop, h]

theorem RCst.typ_int_iff (c : RCst) : c.typ = .Int ↔ ∃ i, c = .Int i := by
  cases c <;> simp [RCst.typ]

theorem RCst.typ_rat_iff (c : RCst) : c.typ = .Rat ↔ ∃ q, c = .Rat q := by
  cases c <;> simp [RCst.typ]

theorem exists_bools (args : List RCst) (h : ∀ a ∈ args, a.typ = .Bool) :
    ∃ bs : List Bool, args = bs.map RCst.Bool := by
  induction args with
  | nil => exact ⟨[], rfl⟩
  | cons a args ih =>
    obtain ⟨b, rfl⟩ := (RCst.typ_bool_iff a).1 (h a (by simp))
    obtain ⟨bs, hbs⟩ := ih (fun x hx => h x (by simp [hx]))
    exact ⟨b :: bs, by simp [hbs]⟩

theorem evalEq_bool (args : List RCst) :
    ∃ b : Bool, Operator.evalEq args = .Bool b := by
  cases args <;> simp [Operator.evalEq]

/-- Each arithmetic primitive preserves the common numeric type; the
`ok` side of the generic fold lemma below. -/
theorem RCst.add_ok (ty : Typ) (x y : RCst) (hty : ty ≠ .Bool)
    (hx : x.typ = ty) (hy : y.typ = ty) :
    ∃ z, RCst.add x y = .ok z ∧ z.typ = ty := by
  cases x <;> cases y <;> simp_all [RCst.typ, RCst.add]
  all_goals exact Typ.noConfusion (hx.trans hy.symm)

theorem RCst.sub_ok (ty : Typ) (x y : RCst) (hty : ty ≠ .Bool)
    (hx : x.typ = ty) (hy : y.typ = ty) :
    ∃ z, RCst.sub x y = .ok z ∧ z.typ = ty := by
  cases x <;> cases y <;> simp_all [RCst.typ, RCst.sub]
  all_goals exact Typ.noConfusion (hx.trans hy.symm)

theorem RCst.mul_ok (ty : Typ) (x y : RCst) (hty : ty ≠ .Bool)
    (hx : x.typ = ty) (hy : y.typ = ty) :
    ∃ z, RCst.mul x y = .ok z ∧ z.typ = ty := by
  cases x <;> cases y <;> simp_all [RCst.typ, RCst.mul]
  all_goals exact Typ.noConfusion (hx.trans hy.symm)

theorem RCst.div_ok (ty : Typ) (x y : RCst) (hty : ty ≠ .Bool)
    (hx : x.typ = ty) (hy : y.typ = ty) (hz : y.isZero = false) :
    ∃ z, RCst.div x y = .ok z ∧ z.typ = ty := by
  cases x <;> cases y <;> simp_all [RCst.typ, RCst.div, RCst.isZero]
  all_goals exact Typ.noConfusion (hx.trans hy.symm)

theorem RCst.neg_ok (ty : Typ) (x : RCst) (hty : ty ≠ .Bool)
    (hx : x.typ = ty) : ∃ z, RCst.neg x = some z ∧ z.typ = ty := by
  cases x <;> simp_all [RCst.typ, RCst.neg]

/-- Generic success lemma for the arithmetic left fold of
`Operator::eval`: if every step preserves the common type (under a
per-element side condition `P`), the whole fold succeeds with that
type. -/
theorem evalFold_ok (errOp : Operator) (ty : Typ)
    (step : RCst → RCst → Except RCst RCst) (P : RCst → Prop)
    (hstep : ∀ x y, x.typ = ty → y.typ = ty → P y →
      ∃ z, step x y = .ok z ∧ z.typ = ty) :
    ∀ (rest : List RCst) (res : RCst), res.typ = ty →
    (∀ a ∈ rest, a.typ = ty ∧ P a) →
    ∃ c, Operator.evalFold errOp step res rest = .ok c ∧ c.typ = ty := by
  intro rest
  induction rest with
  | nil => intro res hres _; exact ⟨res, by simp [Operator.evalFold], hres⟩
  | cons a rest ih =>
    intro res hres hall
    obtain ⟨ha, hpa⟩ := hall a (by simp)
    obtain ⟨z, hz, hzty⟩ := hstep res a hres ha hpa
    obtain ⟨c, hc, hcty⟩ :=
      ih z hzty (fun x hx => hall x (by simp [hx]))
    exact ⟨c, by simp [Operator.evalFold, hz, hc], hcty⟩

theorem tc_eq_ok (sig : List Typ) (ty : Typ)
    (h : Operator.type_check .Eq sig = .ok ty) : ty = .Bool := by
  cases sig with
  | nil => exact (Except.ok.inj h).symm
  | cons t rest =>
    simp only [Operator.type_check] at h
    cases hl : Operator.tcAllEqLoop t 0 rest with
    | ok u =>
      rw [hl] at h
      exact (Except.ok.inj h).symm
    | error e =>
      rw [hl] at h
      exact Except.noConfusion h

theorem tc_distinct_ok (sig : List Typ) (ty : Typ)
    (h : Operator.type_check .Distinct sig = .ok ty) : ty = .Bool := by
  cases sig with
  | nil => exact (Except.ok.inj h).symm
  | cons t rest =>
    simp only [Operator.type_check] at h
    cases hl : Operator.tcAllEqLoop t 1 rest with
    | ok u =>
      rw [hl] at h
      exact (Except.ok.inj h).symm
    | error e =>
      rw [hl] at h
      exact Except.noConfusion h

theorem tc_boolops_ok (op : Operator)
    (hop : op = .And ∨ op = .Or ∨ op = .Impl ∨ op = .Xor)
    (sig : List Typ) (ty : Typ)
    (h : Operator.type_check op sig = .ok ty) :
    ty = .Bool ∧ ∀ t ∈ sig, t = .Bool := by
  have hbody : Operator.type_check op sig =
      (do
        _ ← Operator.tcAllBoolLoop 0 sig
        .ok .Bool) := by
    rcases hop with rfl | rfl | rfl | rfl <;> rfl
  rw [hbody] at h
  cases hl : Operator.tcAllBoolLoop 0 sig with
  | ok u =>
    rw [hl] at h
    exact ⟨(Except.ok.inj h).symm, (tcAllBoolLoop_ok_iff sig 0).1 (by simp [hl])⟩
  | error e =>
    rw [hl] at h
    exact Except.noConfusion h

theorem tc_ite_ok (sig : List Typ) (ty : Typ)
    (h : Operator.type_check .Ite sig = .ok ty) :
    ∃ b, sig = [.Bool, b, b] ∧ ty = b := by
  match sig with
  | [] => exact Except.noConfusion h
  | [_] => exact Except.noConfusion h
  | [_, _] => exact Except.noConfusion h
  | a :: b :: c :: d :: rest => exact Except.noConfusion h
  | [a, b, c] =>
    simp only [Operator.type_check] at h
    by_cases ha : a = Typ.Bool
    · by_cases hbc : b = c
      · simp [ha, hbc] at h
        exact ⟨c, by simp [ha, hbc], h.symm⟩
      · simp [ha, hbc] at h
    · simp [ha] at h

theorem tc_not_ok (sig : List Typ) (ty : Typ)
    (h : Operator.type_check .Not sig = .ok ty) :
    sig = [.Bool] ∧ ty = .Bool := by
  match sig with
  | [] => exact Except.noConfusion h
  | a :: b :: rest => exact Except.noConfusion h
  | [a] =>
    simp only [Operator.type_check] at h
    by_cases ha : a = Typ.Bool
    · simp [ha] at h
      simp [ha, h.symm]
    · simp [ha] at h

theorem tc_arith_ok (op : Operator)
    (hop : op = .Add ∨ op = .Sub ∨ op = .Mul ∨ op = .Div)
    (sig : List Typ) (ty : Typ)
    (h : Operator.type_check op sig = .ok ty) :
    ∃ t0 rest, sig = t0 :: rest ∧ t0 ≠ .Bool ∧ (∀ t ∈ rest, t = t0) ∧
      ty = t0 := by
  cases sig with
  | nil =>
    have hbody : Operator.type_check op [] =
        .error (none, "applied to nothing") := by
      rcases hop with rfl | rfl | rfl | rfl <;> rfl
    rw [hbody] at h
    exact Except.noConfusion h
  | cons t0 rest =>
    cases t0 with
    | Bool =>
      have hbody : Operator.type_check op (Typ.Bool :: rest) =
          .error (some [0], "expected Int or Real") := by
        rcases hop with rfl | rfl | rfl | rfl <;> rfl
      rw [hbody] at h
      exact Except.noConfusion h
    | Int =>
      have hbody : Operator.type_check op (Typ.Int :: rest) =
          (do
            _ ← Operator.tcAllEqLoop .Int 1 rest
            .ok .Int) := by
        rcases hop with rfl | rfl | rfl | rfl <;> rfl
      rw [hbody] at h
      cases hl : Operator.tcAllEqLoop .Int 1 rest with
      | ok u =>
        rw [hl] at h
        exact ⟨.Int, rest, rfl, by simp,
          (tcAllEqLoop_ok_iff .Int rest 1).1 (by simp [hl]),
          (Except.ok.inj h).symm⟩
      | error e =>
        rw [hl] at h
        exact Except.noConfusion h
    | Rat =>
      have hbody : Operator.type_check op (Typ.Rat :: rest) =
          (do
            _ ← Operator.tcAllEqLoop .Rat 1 rest
            .ok .Rat) := by
        rcases hop with rfl | rfl | rfl | rfl <;> rfl
      rw [hbody] at h
      cases hl : Operator.tcAllEqLoop .Rat 1 rest with
      | ok u =>
        rw [hl] at h
        exact ⟨.Rat, rest, rfl, by simp,
          (tcAllEqLoop_ok_iff .Rat rest 1).1 (by simp [hl]),
          (Except.ok.inj h).symm⟩
      | error e =>
        rw [hl] at h
        exact Except.noConfusion h

theorem tc_cmp_ok (op : Operator)
    (hop : op = .Le ∨ op = .Ge ∨ op = .Lt ∨ op = .Gt)
    (sig : List Typ) (ty : Typ)
    (h : Operator.type_check op sig = .ok ty) :
    ∃ t0 rest, sig = t0 :: rest ∧ t0 ≠ .Bool ∧ (∀ t ∈ rest, t = t0) ∧
      ty = .Bool := by
  cases sig with
  | nil =>
    have hbody : Operator.type_check op [] =
        .error (none, "applied to nothing") := by
      rcases hop with rfl | rfl | rfl | rfl <;> rfl
    rw [hbody] at h
    exact Except.noConfusion h
  | cons t0 rest =>
    cases t0 with
    | Bool =>
      have hbody : Operator.type_check op (Typ.Bool :: rest) =
          .error (some [0], "expected Int or Real") := by
        rcases hop with rfl | rfl | rfl | rfl <;> rfl
      rw [hbody] at h
      exact Except.noConfusion h
    | Int =>
      have hbody : Operator.type_check op (Typ.Int :: rest) =
          (do
            _ ← Operator.tcAllEqLoop .Int 1 rest
            .ok .Bool) := by
        rcases hop with rfl | rfl | rfl | rfl <;> rfl
      rw [hbody] at h
      cases hl : Operator.tcAllEqLoop .Int 1 rest with
      | ok u =>
        rw [hl] at h
        exact ⟨.Int, rest, rfl, by simp,
          (tcAllEqLoop_ok_iff .Int rest 1).1 (by simp [hl]),
          (Except.ok.inj h).symm⟩
      | error e =>
        rw [hl] at h
        exact Except.noConfusion h
    | Rat =>
      have hbody : Operator.type_check op (Typ.Rat :: rest) =
          (do
            _ ← Operator.tcAllEqLoop .Rat 1 rest
            .ok .Bool) := by
        rcases hop with rfl | rfl | rfl | rfl <;> rfl
      rw [hbody] at h
      cases hl : Operator.tcAllEqLoop .Rat 1 rest with
      | ok u =>
        rw [hl] at h
        exact ⟨.Rat, rest, rfl, by simp,
          (tcAllEqLoop_ok_iff .Rat rest 1).1 (by simp [hl]),
          (Except.ok.inj h).symm⟩
      | error e =>
        rw [hl] at h
        exact Except.noConfusion h

theorem evalCmp_ok (op : Operator) (icmp : IntV → IntV → Bool)
    (qcmp : RatV → RatV → Bool) (x y : RCst) (t0 : Typ) (ht0 : t0 ≠ .Bool)
    (hx : x.typ = t0) (hy : y.typ = t0) :
    ∃ c, Operator.evalCmp op icmp qcmp [x, y] = .ok c ∧ c.typ = .Bool := by
  cases x <;> cases y <;> simp_all [RCst.typ, Operator.evalCmp]
  all_goals exact Typ.noConfusion (hx.trans hy.symm)

theorem mem_typ_of_map {args : List RCst} {t0 : Typ} {rest : List Typ}
    (hmap : args.map RCst.typ = rest) (hall : ∀ t ∈ rest, t = t0) :
    ∀ a ∈ args, a.typ = t0 := by
  intro a ha
  exact hall _ (hmap ▸ List.mem_map_of_mem RCst.typ ha)

/-- Counterexample to C3 as stated: `Le` applied to the single constant
`1` type-checks (the comparison type-check does not restrict the
argument count), yet `eval` rejects it with an arity error. -/
theorem C3_counterexample :
    Operator.type_check .Le [(RCst.Int 1).typ] = .ok .Bool ∧
    Operator.eval .Le [.Int 1] = .error (.opArityError .Le 1 "2") := by
  constructor <;> rfl

/-- C3 (amended): an operator application on constants whose argument
types type-check evaluates without error to a constant of the checked
type, provided additionally that the application satisfies the arity
restriction `eval` imposes on the comparisons (exactly 2 arguments for
`Le`/`Ge`/`Lt`/`Gt`, which `type_check` does not enforce) and that a
`Div` application meets no zero divisor. -/
theorem C3_type_eval_agreement (op : Operator) (args : List RCst) (ty : Typ)
    (htc : Operator.type_check op (args.map RCst.typ) = .ok ty)
    (harity : (op = .Le ∨ op = .Ge ∨ op = .Lt ∨ op = .Gt) →
      args.length = 2)
    (hdiv : op = .Div → ∀ a ∈ args.drop 1, a.isZero = false) :
    ∃ c, Operator.eval op args = .ok c ∧ c.typ = ty := by
  cases op with
  | Eq =>
    have hty := tc_eq_ok _ _ htc
    obtain ⟨b, hb⟩ := evalEq_bool args
    exact ⟨.Bool b, by simp [Operator.eval, hb], by simp [RCst.typ, hty]⟩
  | Ite =>
    obtain ⟨tb, hsig, hty⟩ := tc_ite_ok _ _ htc
    have hlen : args.length = 3 := by
      have := congrArg List.length hsig
      simpa using this
    obtain ⟨x, y, z, rfl⟩ := List.length_eq_three.1 hlen
    have hx : x.typ = Typ.Bool := by
      have := congrArg (fun l => l[0]?) hsig
      simpa using this
    have hy : y.typ = tb := by
      have := congrArg (fun l => l[1]?) hsig
      simpa using this
    have hz : z.typ = tb := by
      have := congrArg (fun l => l[2]?) hsig
      simpa using this
    obtain ⟨b, rfl⟩ := (RCst.typ_bool_iff x).1 hx
    cases b
    · exact ⟨z, by simp [Operator.eval], by rw [hz, hty]⟩
    · exact ⟨y, by simp [Operator.eval], by rw [hy, hty]⟩
  | Not =>
    obtain ⟨hsig, hty⟩ := tc_not_ok _ _ htc
    have hlen : args.length = 1 := by
      have := congrArg List.length hsig
      simpa using this
    obtain ⟨x, rfl⟩ := List.length_eq_one.1 hlen
    simp only [List.map_cons, List.map_nil, List.cons.injEq,
      and_true] at hsig
    obtain ⟨b, rfl⟩ := (RCst.typ_bool_iff x).1 hsig
    exact ⟨.Bool (!b), by simp [Operator.eval], by simp [RCst.typ, hty]⟩
  | And =>
    obtain ⟨hty, hall⟩ := tc_boolops_ok .And (Or.inl rfl) _ _ htc
    obtain ⟨bs, rfl⟩ := exists_bools args (mem_typ_of_map rfl hall)
    exact ⟨.Bool (true && bs.all id),
      by simp [Operator.eval, evalAndLoop_bools],
      by simp [RCst.typ, hty]⟩
  | Or =>
    obtain ⟨hty, hall⟩ := tc_boolops_ok .Or (Or.inr (Or.inl rfl)) _ _ htc
    obtain ⟨bs, rfl⟩ := exists_bools args (mem_typ_of_map rfl hall)
    exact ⟨.Bool (true || bs.any id),
      by simp [Operator.eval, evalOrLoop_bools],
      by simp [RCst.typ, hty]⟩
  | Impl =>
    obtain ⟨hty, hall⟩ :=
      tc_boolops_ok .Impl (Or.inr (Or.inr (Or.inl rfl))) _ _ htc
    obtain ⟨bs, rfl⟩ := exists_bools args (mem_typ_of_map rfl hall)
    obtain ⟨b, hb⟩ := evalImplLoop_bools bs 0 false
    exact ⟨.Bool b, by simpa [Operator.eval] using hb,
      by simp [RCst.typ, hty]⟩
  | Xor =>
    obtain ⟨hty, hall⟩ :=
      tc_boolops_ok .Xor (Or.inr (Or.inr (Or.inr rfl))) _ _ htc
    obtain ⟨bs, rfl⟩ := exists_bools args (mem_typ_of_map rfl hall)
    exact ⟨.Bool (decide (0 + bs.count true = 1)),
      by simp [Operator.eval, evalXorLoop_bools bs 0 0],
      by simp [RCst.typ, hty]⟩
  | Distinct =>
    have hty := tc_distinct_ok _ _ htc
    obtain ⟨b, hb⟩ := evalEq_bool args
    exact ⟨.Bool (!b), by simp [Operator.eval, hb],
      by simp [RCst.typ, hty]⟩
  | Add =>
    obtain ⟨t0, rest, hsig, ht0, hall, hty⟩ :=
      tc_arith_ok .Add (Or.inl rfl) _ _ htc
    cases args with
    | nil => exact List.noConfusion hsig
    | cons x xs =>
      simp only [List.map_cons, List.cons.injEq] at hsig
      obtain ⟨hx, hrest⟩ := hsig
      obtain ⟨c, hc, hcty⟩ := evalFold_ok .Add t0 RCst.add (fun _ => True)
        (fun a b ha hb _ => RCst.add_ok t0 a b ht0 ha hb) xs x hx
        (fun a ha => ⟨mem_typ_of_map hrest hall a ha, trivial⟩)
      exact ⟨c, by simpa [Operator.eval] using hc, hcty.trans hty.symm⟩
  | Sub =>
    obtain ⟨t0, rest, hsig, ht0, hall, hty⟩ :=
      tc_arith_ok .Sub (Or.inr (Or.inl rfl)) _ _ htc
    cases args with
    | nil => exact List.noConfusion hsig
    | cons x xs =>
      simp only [List.map_cons, List.cons.injEq] at hsig
      obtain ⟨hx, hrest⟩ := hsig
      cases xs with
      | nil =>
        obtain ⟨z, hz, hzty⟩ := RCst.neg_ok t0 x ht0 hx
        exact ⟨z, by simp [Operator.eval, hz], hzty.trans hty.symm⟩
      | cons y ys =>
        obtain ⟨c, hc, hcty⟩ := evalFold_ok .Sub t0 RCst.sub (fun _ => True)
          (fun a b ha hb _ => RCst.sub_ok t0 a b ht0 ha hb) (y :: ys) x hx
          (fun a ha => ⟨mem_typ_of_map hrest hall a ha, trivial⟩)
        exact ⟨c, by simpa [Operator.eval] using hc, hcty.trans hty.symm⟩
  | Mul =>
    obtain ⟨t0, rest, hsig, ht0, hall, hty⟩ :=
      tc_arith_ok .Mul (Or.inr (Or.inr (Or.inl rfl))) _ _ htc
    cases args with
    | nil => exact List.noConfusion hsig
    | cons x xs =>
      simp only [List.map_cons, List.cons.injEq] at hsig
      obtain ⟨hx, hrest⟩ := hsig
      obtain ⟨c, hc, hcty⟩ := evalFold_ok .Mul t0 RCst.mul (fun _ => True)
        (fun a b ha hb _ => RCst.mul_ok t0 a b ht0 ha hb) xs x hx
        (fun a ha => ⟨mem_typ_of_map hrest hall a ha, trivial⟩)
      exact ⟨c, by simpa [Operator.eval] using hc, hcty.trans hty.symm⟩
  | Div =>
    obtain ⟨t0, rest, hsig, ht0, hall, hty⟩ :=
      tc_arith_ok .Div (Or.inr (Or.inr (Or.inr rfl))) _ _ htc
    cases args with
    | nil => exact List.noConfusion hsig
    | cons x xs =>
      simp only [List.map_cons, List.cons.injEq] at hsig
      obtain ⟨hx, hrest⟩ := hsig
      obtain ⟨c, hc, hcty⟩ := evalFold_ok .Sub t0 RCst.div
        (fun a => a.isZero = false)
        (fun a b ha hb hz => RCst.div_ok t0 a b ht0 ha hb hz) xs x hx
        (fun a ha => ⟨mem_typ_of_map hrest hall a ha,
          hdiv rfl a (by simpa using ha)⟩)
      exact ⟨c, by simpa [Operator.eval] using hc, hcty.trans hty.symm⟩
  | Le =>
    obtain ⟨x, y, rfl⟩ := List.length_eq_two.1 (harity (Or.inl rfl))
    obtain ⟨t0, rest, hsig, ht0, hall, hty⟩ :=
      tc_cmp_ok .Le (Or.inl rfl) _ _ htc
    simp only [List.map_cons, List.map_nil, List.cons.injEq] at hsig
    obtain ⟨hx, hrest⟩ := hsig
    have hy : y.typ = t0 := hall _ (by simp [← hrest])
    obtain ⟨c, hc, hcty⟩ := evalCmp_ok .Le (· ≤ ·) (· ≤ ·) x y t0 ht0 hx hy
    exact ⟨c, by simpa [Operator.eval] using hc, hcty.trans hty.symm⟩
  | Ge =>
    obtain ⟨x, y, rfl⟩ := List.length_eq_two.1 (harity (Or.inr (Or.inl rfl)))
    obtain ⟨t0, rest, hsig, ht0, hall, hty⟩ :=
      tc_cmp_ok .Ge (Or.inr (Or.inl rfl)) _ _ htc
    simp only [List.map_cons, List.map_nil, List.cons.injEq] at hsig
    obtain ⟨hx, hrest⟩ := hsig
    have hy : y.typ = t0 := hall _ (by simp [← hrest])
    obtain ⟨c, hc, hcty⟩ := evalCmp_ok .Ge (· ≥ ·) (· ≥ ·) x y t0 ht0 hx hy
    exact ⟨c, by simpa [Operator.eval] using hc, hcty.trans hty.symm⟩
  | Lt =>
    obtain ⟨x, y, rfl⟩ :=
      List.length_eq_two.1 (harity (Or.inr (Or.inr (Or.inl rfl))))
    obtain ⟨t0, rest, hsig, ht0, hall, hty⟩ :=
      tc_cmp_ok .Lt (Or.inr (Or.inr (Or.inl rfl))) _ _ htc
    simp only [List.map_cons, List.map_nil, List.cons.injEq] at hsig
    obtain ⟨hx, hrest⟩ := hsig
    have hy : y.typ = t0 := hall _ (by simp [← hrest])
    obtain ⟨c, hc, hcty⟩ := evalCmp_ok .Lt (· < ·) (· < ·) x y t0 ht0 hx hy
    exact ⟨c, by simpa [Operator.eval] using hc, hcty.trans hty.symm⟩
  | Gt =>
    obtain ⟨x, y, rfl⟩ :=
      List.length_eq_two.1 (harity (Or.inr (Or.inr (Or.inr rfl))))
    obtain ⟨t0, rest, hsig, ht0, hall, hty⟩ :=
      tc_cmp_ok .Gt (Or.inr (Or.inr (Or.inr rfl))) _ _ htc
    simp only [List.map_cons, List.map_nil, List.cons.injEq] at hsig
    obtain ⟨hx, hrest⟩ := hsig
    have hy : y.typ = t0 := hall _ (by simp [← hrest])
    obtain ⟨c, hc, hcty⟩ := evalCmp_ok .Gt (· > ·) (· > ·) x y t0 ht0 hx hy
    exact ⟨c, by simpa [Operator.eval] using hc, hcty.trans hty.symm⟩

/-- Witness for C3 (amended) at `Add(1, 2)`: type-checks to `Int` and
evaluates to an `Int` constant. -/
theorem C3_type_eval_agreement_witness :
    ∃ c, Operator.eval .Add [.Int 1, .Int 2] = .ok c ∧ c.typ = Typ.Int :=
  C3_type_eval_agreement .Add [.Int 1, .Int 2] .Int (by rfl)
    (by intro h; rcases h with h | h | h | h <;> exact Operator.noConfusion h)
    (by intro h; exact Operator.noConfusion h)

/-! ## The iterative rewrite traversal (`term.rs`, `mod zip`)

`zip::var_map` drives a zipper (`Zip::go_down` / `Zip::go_up`) over a
term: the supplied function is applied to every leaf (variable or
constant) reached by `go_down`, and inner nodes are rebuilt through the
Term Store's constructors on the way up. The embedding below computes
the same result recursively, mirroring the zipper case for case:

* `go_down` panics on an operator or function application with an empty
  argument list — embedded as the `none` result (`panic`), produced
  before the leaf function is ever applied, exactly as in the source;
* an empty `Let` binding list is skipped by `go_up` (`Let1` with no
  bindings), so the rebuilt term is the transformed body alone;
* quantifiers are rebuilt through `BindMaker`, whose empty-binder
  collapse is reproduced by `consForall`/`consExists`;
* the body of a `Let` is transformed before its binding terms
  (`go_down` descends into the body first; `go_up` then walks the
  bindings), and errors short-circuit in that order. -/

/-- Applies the leaf function: `Ok(Some(t'))` rewrites the leaf,
`Ok(None)` keeps it, `Err` aborts (`zip::var_map`, the `f` call). -/
def applyLeaf (f : RealTerm → Except EvalError (Option RealTerm))
    (t : RealTerm) : Except EvalError RealTerm :=
  match f t with
  | .ok (some t') => .ok t'
  | .ok none => .ok t
  | .error e => .error e

/-- `BindMaker::forall` rebuild on the way up: empty binders collapse. -/
def consForall (binds : List (Symb × Typ)) (body : RealTerm) : RealTerm :=
  if binds.isEmpty then body else .Forall binds body

/-- `BindMaker::exists` rebuild on the way up: empty binders collapse. -/
def consExists (binds : List (Symb × Typ)) (body : RealTerm) : RealTerm :=
  if binds.isEmpty then body else .Exists binds body

mutual

/-- The result of `zip::var_map` on one term: `none` embeds a panic of
the traversal, `some (.error e)` an error returned by the leaf
function, `some (.ok t')` the rebuilt term. -/
def varMap (f : RealTerm → Except EvalError (Option RealTerm)) :
    RealTerm → Option (Except EvalError RealTerm)
  | .V v => some (applyLeaf f (.V v))
  | .C c => some (applyLeaf f (.C c))
  | .Op op args =>
    if args.isEmpty then none
    else
      match varMapList f args with
      | none => none
      | some (.error e) => some (.error e)
      | some (.ok args') => some (.ok (.Op op args'))
  | .App g args =>
    if args.isEmpty then none
    else
      match varMapList f args with
      | none => none
      | some (.error e) => some (.error e)
      | some (.ok args') => some (.ok (.App g args'))
  | .Forall binds body =>
    match varMap f body with
    | none => none
    | some (.error e) => some (.error e)
    | some (.ok b') => some (.ok (consForall binds b'))
  | .Exists binds body =>
    match varMap f body with
    | none => none
    | some (.error e) => some (.error e)
    | some (.ok b') => some (.ok (consExists binds b'))
  | .Let binds body =>
    if binds.isEmpty then varMap f body
    else
      match varMap f body with
      | none => none
      | some (.error e) => some (.error e)
      | some (.ok b') =>
        match varMapBinds f binds with
        | none => none
        | some (.error e) => some (.error e)
        | some (.ok binds') => some (.ok (.Let binds' b'))

def varMapList (f : RealTerm → Except EvalError (Option RealTerm)) :
    List RealTerm → Option (Except EvalError (List RealTerm))
  | [] => some (.ok [])
  | t :: ts =>
    match varMap f t with
    | none => none
    | some (.error e) => some (.error e)
    | some (.ok t') =>
      match varMapList f ts with
      | none => none
      | some (.error e) => some (.error e)
      | some (.ok ts') => some (.ok (t' :: ts'))

def varMapBinds (f : RealTerm → Except EvalError (Option RealTerm)) :
    List (Symb × RealTerm) → Option (Except EvalError (List (Symb × RealTerm)))
  | [] => some (.ok [])
  | (s, t) :: ts =>
    match varMap f t with
    | none => none
    | some (.error e) => some (.error e)
    | some (.ok t') =>
      match varMapBinds f ts with
      | none => none
      | some (.error e) => some (.error e)
      | some (.ok ts') => some (.ok ((s, t') :: ts'))

end

/-- The leaf function of `bump` (`term.rs`, `bump`): promote a
current-state variable to its next-state counterpart; any other state
variable is an error; plain variables and constants are untouched. -/
def bumpF (t : RealTerm) : Except EvalError (Option RealTerm) :=
  match t with
  | .V (.SVar s .Curr) => .ok (some (.V (.SVar s .Next)))
  | .V (.SVar _ _) => .error (.msg "[bump] illegal svar")
  | _ => .ok none

/-- The leaf function of `debump` (`term.rs`, `debump`): the inverse
promotion. -/
def debumpF (t : RealTerm) : Except EvalError (Option RealTerm) :=
  match t with
  | .V (.SVar s .Next) => .ok (some (.V (.SVar s .Curr)))
  | .V (.SVar _ _) => .error (.msg "[debump] illegal svar")
  | _ => .ok none

/-- `term.rs`, `bump`: rewrite every current-state variable to its
next-state counterpart via the zipper. -/
def bump (t : RealTerm) : Option (Except EvalError RealTerm) :=
  varMap bumpF t

/-- `term.rs`, `debump`: the inverse rewrite. -/
def debump (t : RealTerm) : Option (Except EvalError RealTerm) :=
  varMap debumpF t

mutual

/-- Well-formedness of a term as the store produces it: operator and
function applications have at least one argument (the caller contract
of §4.1 — `go_down` panics otherwise) and binder lists are nonempty
(the store's constructors collapse empty binders away). -/
def wfT : RealTerm → Bool
  | .V _ => true
  | .C _ => true
  | .Op _ args => !args.isEmpty && wfTList args
  | .Forall binds body => !binds.isEmpty && wfT body
  | .Exists binds body => !binds.isEmpty && wfT body
  | .Let binds body => !binds.isEmpty && wfTBinds binds && wfT body
  | .App _ args => !args.isEmpty && wfTList args

def wfTList : List RealTerm → Bool
  | [] => true
  | t :: ts => wfT t && wfTList ts

def wfTBinds : List (Symb × RealTerm) → Bool
  | [] => true
  | (_, t) :: ts => wfT t && wfTBinds ts

end

mutual

/-- Every state variable in the term is a current-state variable. -/
def currOnlyT : RealTerm → Bool
  | .V (.SVar _ st) => st = State.Curr
  | .V (.Var _) => true
  | .C _ => true
  | .Op _ args => currOnlyTList args
  | .Forall _ body => currOnlyT body
  | .Exists _ body => currOnlyT body
  | .Let binds body => currOnlyTBinds binds && currOnlyT body
  | .App _ args => currOnlyTList args

def currOnlyTList : List RealTerm → Bool
  | [] => true
  | t :: ts => currOnlyT t && currOnlyTList ts

def currOnlyTBinds : List (Symb × RealTerm) → Bool
  | [] => true
  | (_, t) :: ts => currOnlyT t && currOnlyTBinds ts

end

mutual

/-- The pure shape of `bump` on traversable, current-state-only terms:
every state variable is promoted to next-state, everything else is
rebuilt unchanged. -/
def bumpP : RealTerm → RealTerm
  | .V (.SVar s _) => .V (.SVar s .Next)
  | .V (.Var s) => .V (.Var s)
  | .C c => .C c
  | .Op op args => .Op op (bumpPList args)
  | .Forall binds body => .Forall binds (bumpP body)
  | .Exists binds body => .Exists binds (bumpP body)
  | .Let binds body => .Let (bumpPBinds binds) (bumpP body)
  | .App g args => .App g (bumpPList args)

def bumpPList : List RealTerm → List RealTerm
  | [] => []
  | t :: ts => bumpP t :: bumpPList ts

def bumpPBinds : List (Symb × RealTerm) → List (Symb × RealTerm)
  | [] => []
  | (s, t) :: ts => (s, bumpP t) :: bumpPBinds ts

end

theorem bumpPList_eq_map : ∀ ts : List RealTerm, bumpPList ts = ts.map bumpP := by
  intro ts
  induction ts with
  | nil => simp [bumpPList]
  | cons t ts ih => simp [bumpPList, ih]

theorem bumpPBinds_eq_map : ∀ ts : List (Symb × RealTerm),
    bumpPBinds ts = ts.map (fun p => (p.1, bumpP p.2)) := by
  intro ts
  induction ts with
  | nil => simp [bumpPBinds]
  | cons t ts ih =>
    obtain ⟨s, t⟩ := t
    simp [bumpPBinds, ih]

theorem wfTList_iff : ∀ ts : List RealTerm,
    wfTList ts = true ↔ ∀ t ∈ ts, wfT t = true := by
  intro ts
  induction ts with
  | nil => simp [wfTList]
  | cons t ts ih => simp [wfTList, ih]

theorem wfTBinds_iff : ∀ ts : List (Symb × RealTerm),
    wfTBinds ts = true ↔ ∀ p ∈ ts, wfT p.2 = true := by
  intro ts
  induction ts with
  | nil => simp [wfTBinds]
  | cons t ts ih =>
    obtain ⟨s, t⟩ := t
    simp [wfTBinds, ih]

theorem currOnlyTList_iff : ∀ ts : List RealTerm,
    currOnlyTList ts = true ↔ ∀ t ∈ ts, currOnlyT t = true := by
  intro ts
  induction ts with
  | nil => simp [currOnlyTList]
  | cons t ts ih => simp [currOnlyTList, ih]

theorem currOnlyTBinds_iff : ∀ ts : List (Symb × RealTerm),
    currOnlyTBinds ts = true ↔ ∀ p ∈ ts, currOnlyT p.2 = true := by
  intro ts
  induction ts with
  | nil => simp [currOnlyTBinds]
  | cons t ts ih =>
    obtain ⟨s, t⟩ := t
    simp [currOnlyTBinds, ih]

theorem varMapList_congr (f : RealTerm → Except EvalError (Option RealTerm))
    (g : RealTerm → RealTerm) :
    ∀ ts : List RealTerm, (∀ t ∈ ts, varMap f t = some (.ok (g t))) →
    varMapList f ts = some (.ok (ts.map g)) := by
  intro ts
  induction ts with
  | nil => intro _; simp [varMapList]
  | cons t ts ih =>
    intro h
    have h1 := h t (by simp)
    have h2 := ih (fun x hx => h x (by simp [hx]))
    simp [varMapList, h1, h2]

theorem varMapBinds_congr (f : RealTerm → Except EvalError (Option RealTerm))
    (g : RealTerm → RealTerm) :
    ∀ ts : List (Symb × RealTerm),
    (∀ p ∈ ts, varMap f p.2 = some (.ok (g p.2))) →
    varMapBinds f ts = some (.ok (ts.map (fun p => (p.1, g p.2)))) := by
  intro ts
  induction ts with
  | nil => intro _; simp [varMapBinds]
  | cons t ts ih =>
    intro h
    obtain ⟨s, t⟩ := t
    have h1 := h (s, t) (by simp)
    have h2 := ih (fun x hx => h x (by simp [hx]))
    simp [varMapBinds, h1, h2]

theorem varMapList_inv (f : RealTerm → Except EvalError (Option RealTerm))
    (g : RealTerm → RealTerm) :
    ∀ ts : List RealTerm, (∀ t ∈ ts, varMap f (g t) = some (.ok t)) →
    varMapList f (ts.map g) = some (.ok ts) := by
  intro ts
  induction ts with
  | nil => intro _; simp [varMapList]
  | cons t ts ih =>
    intro h
    have h1 := h t (by simp)
    have h2 := ih (fun x hx => h x (by simp [hx]))
    simp [varMapList, h1, h2]

theorem varMapBinds_inv (f : RealTerm → Except EvalError (Option RealTerm))
    (g : RealTerm → RealTerm) :
    ∀ ts : List (Symb × RealTerm),
    (∀ p ∈ ts, varMap f (g p.2) = some (.ok p.2)) →
    varMapBinds f (ts.map (fun p => (p.1, g p.2))) = some (.ok ts) := by
  intro ts
  induction ts with
  | nil => intro _; simp [varMapBinds]
  | cons t ts ih =>
    intro h
    obtain ⟨s, t⟩ := t
    have h1 := h (s, t) (by simp)
    have h2 := ih (fun x hx => h x (by simp [hx]))
    simp [varMapBinds, h1, h2]

theorem bump_eq_bumpP :
    ∀ t : RealTerm, wfT t = true → currOnlyT t = true →
    bump t = some (.ok (bumpP t)) := by
  have main : ∀ (n : Nat) (t : RealTerm), sizeOf t ≤ n → wfT t = true →
      currOnlyT t = true → varMap bumpF t = some (.ok (bumpP t)) := by
    intro n
    induction n with
    | zero =>
      intro t h
      exfalso
      cases t <;> simp at h
    | succ n ih =>
      intro t hsz hwf hco
      cases t with
      | V v =>
        cases v with
        | Var s => simp [varMap, applyLeaf, bumpF, bumpP]
        | SVar s st =>
          have : st = State.Curr := by simpa [currOnlyT] using hco
          subst this
          simp [varMap, applyLeaf, bumpF, bumpP]
      | C c => simp [varMap, applyLeaf, bumpF, bumpP]
      | Op op args =>
        simp only [wfT, Bool.and_eq_true] at hwf
        obtain ⟨hne, hl⟩ := hwf
        have hne' : args.isEmpty = false := by simpa using hne
        have hwf' := (wfTList_iff args).1 hl
        have hco' := (currOnlyTList_iff args).1 (by simpa [currOnlyT] using hco)
        have hargs : ∀ a ∈ args, varMap bumpF a = some (.ok (bumpP a)) := by
          intro a ha
          have hs := List.sizeOf_lt_of_mem ha
          exact ih a (by simp at hsz; omega) (hwf' a ha) (hco' a ha)
        have hlist := varMapList_congr bumpF bumpP args hargs
        simp [varMap, hne', hlist, bumpP, bumpPList_eq_map]
      | App g args =>
        simp only [wfT, Bool.and_eq_true] at hwf
        obtain ⟨hne, hl⟩ := hwf
        have hne' : args.isEmpty = false := by simpa using hne
        have hwf' := (wfTList_iff args).1 hl
        have hco' := (currOnlyTList_iff args).1 (by simpa [currOnlyT] using hco)
        have hargs : ∀ a ∈ args, varMap bumpF a = some (.ok (bumpP a)) := by
          intro a ha
          have hs := List.sizeOf_lt_of_mem ha
          exact ih a (by simp at hsz; omega) (hwf' a ha) (hco' a ha)
        have hlist := varMapList_congr bumpF bumpP args hargs
        simp [varMap, hne', hlist, bumpP, bumpPList_eq_map]
      | Forall binds body =>
        simp only [wfT, Bool.and_eq_true] at hwf
        obtain ⟨hne, hb⟩ := hwf
        have hne' : binds.isEmpty = false := by simpa using hne
        have hbody := ih body (by simp at hsz; omega) hb
          (by simpa [currOnlyT] using hco)
        simp [varMap, hbody, consForall, hne', bumpP]
      | Exists binds body =>
        simp only [wfT, Bool.and_eq_true] at hwf
        obtain ⟨hne, hb⟩ := hwf
        have hne' : binds.isEmpty = false := by simpa using hne
        have hbody := ih body (by simp at hsz; omega) hb
          (by simpa [currOnlyT] using hco)
        simp [varMap, hbody, consExists, hne', bumpP]
      | Let binds body =>
        simp only [wfT, Bool.and_eq_true] at hwf
        obtain ⟨⟨hne, hbinds⟩, hb⟩ := hwf
        have hne' : binds.isEmpty = false := by simpa using hne
        simp only [currOnlyT, Bool.and_eq_true] at hco
        obtain ⟨hcob, hcobody⟩ := hco
        have hwf' := (wfTBinds_iff binds).1 hbinds
        have hco' := (currOnlyTBinds_iff binds).1 hcob
        have hbody := ih body (by simp at hsz; omega) hb hcobody
        have hbindsmap : ∀ p ∈ binds,
            varMap bumpF p.2 = some (.ok (bumpP p.2)) := by
          intro p hp
          have hs := List.sizeOf_lt_of_mem hp
          have hs2 : sizeOf p.2 < sizeOf p := by
            obtain ⟨s, u⟩ := p
            simp
            try omega
          exact ih p.2 (by simp at hsz; omega) (hwf' p hp) (hco' p hp)
        have hlist := varMapBinds_congr bumpF bumpP binds hbindsmap
        simp [varMap, hne', hbody, hlist, bumpP, bumpPBinds_eq_map]
  intro t hwf hco
  exact main (sizeOf t) t (le_refl _) hwf hco

theorem debump_bumpP :
    ∀ t : RealTerm, wfT t = true → currOnlyT t = true →
    debump (bumpP t) = some (.ok t) := by
  have main : ∀ (n : Nat) (t : RealTerm), sizeOf t ≤ n → wfT t = true →
      currOnlyT t = true → varMap debumpF (bumpP t) = some (.ok t) := by
    intro n
    induction n with
    | zero =>
      intro t h
      exfalso
      cases t <;> simp at h
    | succ n ih =>
      intro t hsz hwf hco
      cases t with
      | V v =>
        cases v with
        | Var s => simp [varMap, applyLeaf, debumpF, bumpP]
        | SVar s st =>
          have : st = State.Curr := by simpa [currOnlyT] using hco
          subst this
          simp [varMap, applyLeaf, debumpF, bumpP]
      | C c => simp [varMap, applyLeaf, debumpF, bumpP]
      | Op op args =>
        simp only [wfT, Bool.and_eq_true] at hwf
        obtain ⟨hne, hl⟩ := hwf
        have hne' : args.isEmpty = false := by simpa using hne
        have hwf' := (wfTList_iff args).1 hl
        have hco' := (currOnlyTList_iff args).1 (by simpa [currOnlyT] using hco)
        have hargs : ∀ a ∈ args, varMap debumpF (bumpP a) = some (.ok a) := by
          intro a ha
          have hs := List.sizeOf_lt_of_mem ha
          exact ih a (by simp at hsz; omega) (hwf' a ha) (hco' a ha)
        have hlist := varMapList_inv debumpF bumpP args hargs
        have hnem : (args.map bumpP).isEmpty = false := by
          cases args
          · simp at hne'
          · simp
        simp [bumpP, bumpPList_eq_map, varMap, hnem, hlist]
      | App g args =>
        simp only [wfT, Bool.and_eq_true] at hwf
        obtain ⟨hne, hl⟩ := hwf
        have hne' : args.isEmpty = false := by simpa using hne
        have hwf' := (wfTList_iff args).1 hl
        have hco' := (currOnlyTList_iff args).1 (by simpa [currOnlyT] using hco)
        have hargs : ∀ a ∈ args, varMap debumpF (bumpP a) = some (.ok a) := by
          intro a ha
          have hs := List.sizeOf_lt_of_mem ha
          exact ih a (by simp at hsz; omega) (hwf' a ha) (hco' a ha)
        have hlist := varMapList_inv debumpF bumpP args hargs
        have hnem : (args.map bumpP).isEmpty = false := by
          cases args
          · simp at hne'
          · simp
        simp [bumpP, bumpPList_eq_map, varMap, hnem, hlist]
      | Forall binds body =>
        simp only [wfT, Bool.and_eq_true] at hwf
        obtain ⟨hne, hb⟩ := hwf
        have hne' : binds.isEmpty = false := by simpa using hne
        have hbody := ih body (by simp at hsz; omega) hb
          (by simpa [currOnlyT] using hco)
        simp [bumpP, varMap, hbody, consForall, hne']
      | Exists binds body =>
        simp only [wfT, Bool.and_eq_true] at hwf
        obtain ⟨hne, hb⟩ := hwf
        have hne' : binds.isEmpty = false := by simpa using hne
        have hbody := ih body (by simp at hsz; omega) hb
          (by simpa [currOnlyT] using hco)
        simp [bumpP, varMap, hbody, consExists, hne']
      | Let binds body =>
        simp only [wfT, Bool.and_eq_true] at hwf
        obtain ⟨⟨hne, hbinds⟩, hb⟩ := hwf
        have hne' : binds.isEmpty = false := by simpa using hne
        simp only [currOnlyT, Bool.and_eq_true] at hco
        obtain ⟨hcob, hcobody⟩ := hco
        have hwf' := (wfTBinds_iff binds).1 hbinds
        have hco' := (currOnlyTBinds_iff binds).1 hcob
        have hbody := ih body (by simp at hsz; omega) hb hcobody
        have hbindsmap : ∀ p ∈ binds,
            varMap debumpF (bumpP p.2) = some (.ok p.2) := by
          intro p hp
          have hs := List.sizeOf_lt_of_mem hp
          have hs2 : sizeOf p.2 < sizeOf p := by
            obtain ⟨s, u⟩ := p
            simp
            try omega
          exact ih p.2 (by simp at hsz; omega) (hwf' p hp) (hco' p hp)
        have hlist := varMapBinds_inv debumpF bumpP binds hbindsmap
        have hnem : (binds.map (fun p => (p.1, bumpP p.2))).isEmpty = false := by
          cases binds
          · simp at hne'
          · simp
        simp [bumpP, bumpPBinds_eq_map, varMap, hnem, hbody, hlist]
  intro t hwf hco
  exact main (sizeOf t) t (le_refl _) hwf hco

/-- C6: for every traversable term containing only current-state state
variables, `bump` succeeds, and `debump` of the result returns the
original term: `debump (bump t) = t`. -/
theorem C6_debump_bump_identity (t : RealTerm)
    (hwf : wfT t = true) (hco : currOnlyT t = true) :
    ∃ t', bump t = some (.ok t') ∧ debump t' = some (.ok t) :=
  ⟨bumpP t, bump_eq_bumpP t hwf hco, debump_bumpP t hwf hco⟩

/-- Witness for C6 at `(not |@x|)` over the current-state variable `x`:
bump yields the next-state version and debump returns the original. -/
theorem C6_debump_bump_identity_witness :
    ∃ t', bump (.Op .Not [.V (.SVar "x" .Curr)]) = some (.ok t') ∧
      debump t' = some (.ok (.Op .Not [.V (.SVar "x" .Curr)])) :=
  C6_debump_bump_identity (.Op .Not [.V (.SVar "x" .Curr)])
    (by decide) (by decide)

/-- Counterexample to C5 as stated: constructing a zero-argument
operator application through the store does *not* crash — it returns a
canonical term handle for the zero-argument node (uid 0 on the empty
store). The same holds for a zero-argument function application. -/
theorem C5_counterexample :
    (TermConsign.op (HashConsign.empty RealTerm) .And []).1 =
      ⟨0, RealTerm.Op .And []⟩ ∧
    (TermConsign.app (HashConsign.empty RealTerm) "f" []).1 =
      ⟨0, RealTerm.App "f" []⟩ := by
  constructor <;> rfl

/-- C5 (amended): constructing an operator application with an empty
argument list, or a function application with no arguments, is not
checked at construction time — the store returns a canonical handle for
the zero-argument node and never a typed error. The contract violation
surfaces only later, as a panic, when a zipper traversal
(`Zip::go_down`) reaches the zero-argument node — before the rewrite
function is ever applied. -/
theorem C5_zero_arg_application :
    (∀ (c : TermConsign) (op : Operator),
      (TermConsign.op c op []).1.elm = RealTerm.Op op []) ∧
    (∀ (c : TermConsign) (f : Symb),
      (TermConsign.app c f []).1.elm = RealTerm.App f []) ∧
    (∀ (f : RealTerm → Except EvalError (Option RealTerm)) (op : Operator),
      varMap f (.Op op []) = none) ∧
    (∀ (f : RealTerm → Except EvalError (Option RealTerm)) (g : Symb),
      varMap f (.App g []) = none) := by
  refine ⟨?_, ?_, ?_, ?_⟩
  · intro c op
    exact HashConsign.mk_elm c (.Op op [])
  · intro c f
    exact HashConsign.mk_elm c (.App f [])
  · intro f op
    simp [varMap]
  · intro f g
    simp [varMap]

/-! ## The fold zipper's step type and scope lookup (`term.rs`,
`mod zip2`) and the evaluator's step function (`term.rs`, `mod eval`) -/

namespace zip2

/-- A step upward in the fold zipper (`zip2::Step`). -/
inductive Step (T : Type) where
  | App (f : Symb) (args : List T)
  | Op (op : Operator) (args : List T)
  | Let (binds : List (Symb × T)) (body : T)
  | Forall (binds : List (Symb × Typ)) (body : T)
  | Exists (binds : List (Symb × Typ)) (body : T)
  | C (c : RCst)
  | V (v : RealVar)

/-- Iterates over the reversed scope stack (`zip2::extract` after
`maps.iter().rev()`): first map containing the symbol wins. Each
`HashMap<Sym, T>` scope is embedded as an association list with unique
keys, looked up by `List.lookup`. -/
def extractRev (sym : Symb) : List (List (Symb × T)) → Option T
  | [] => none
  | m :: rest =>
    match m.lookup sym with
    | some t => some t
    | none => extractRev sym rest

/-- Extracts the value associated to a symbol in the innermost scope
that binds it (`zip2::extract`). -/
def extract (sym : Symb) (maps : List (List (Symb × T))) : Option T :=
  extractRev sym maps.reverse

theorem extractRev_eq_none_iff (sym : Symb) :
    ∀ ms : List (List (Symb × T)),
    extractRev sym ms = none ↔ ∀ m ∈ ms, m.lookup sym = none := by
  intro ms
  induction ms with
  | nil => simp [extractRev]
  | cons m0 rest ih =>
    cases hl : m0.lookup sym with
    | none =>
      simp only [extractRev, hl, ih]
      constructor
      · intro h m hm
        rcases List.mem_cons.1 hm with rfl | hm'
        · exact hl
        · exact h m hm'
      · intro h m hm
        exact h m (List.mem_cons_of_mem _ hm)
    | some t =>
      simp only [extractRev, hl]
      constructor
      · intro h
        exact Option.noConfusion h
      · intro h
        have hcontra := h m0 (by simp)
        rw [hl] at hcontra
        exact Option.noConfusion hcontra

theorem extract_eq_none_iff (sym : Symb) (maps : List (List (Symb × T))) :
    extract sym maps = none ↔ ∀ m ∈ maps, m.lookup sym = none := by
  unfold extract
  rw [extractRev_eq_none_iff]
  constructor
  · intro h m hm
    exact h m (by simpa using hm)
  · intro h m hm
    exact h m (by simpa using hm)

end zip2

/-- The default value of a type (`typ.rs` `default()`, not under
`src/`). Modelled from the spec: a free variable absent from the model
and all scopes "is resolved to the declared type's default value"; the
spec does not fix the concrete constants, so representative defaults
are chosen per type (the properties below depend only on the result
being `Typ.default` of the declared type). -/
def Typ.default : Typ → RCst
  | .Bool => .Bool false
  | .Int => .Int 0
  | .Rat => .Rat 0

/-- The function folded by the evaluator (`term.rs`, `eval::eval_term`).
The factory is embedded by `typeOf` (its `type_of` symbol table, given
the variable and the scope) and constants by their payloads; `model`
embeds the `HashMap<Term, &Cst>` prepared by `eval::eval` (keyed by the
variable nodes). The string messages of the source are kept as `msg`
errors. -/
def eval_term (typeOf : RealVar → Symb → Option Typ)
    (model : RealVar → Option RCst)
    (step : zip2.Step RCst)
    (bindings : List (List (Symb × RCst)))
    (quantified : List (List (Symb × Typ)))
    (scope : Symb) : Except EvalError RCst :=
  match step with
  | .App _ _ => .error (.msg "evaluation of applications is not implemented")
  | .Op op args => op.eval args
  | .Let _ cst => .ok cst
  | .C cst => .ok cst
  | .V rvar =>
    match model rvar with
    | some cst => .ok cst
    | none =>
      match zip2.extract rvar.sym bindings with
      | some cst => .ok cst
      | none =>
        match zip2.extract rvar.sym quantified with
        | some _ => .error (.msg "cannot evaluate quantified variable")
        | none =>
          match typeOf rvar scope with
          | some typ => .ok typ.default
          | none =>
            .error (.msg "variable not found in model or in type cache")
  | .Forall _ _ | .Exists _ _ =>
    .error (.msg "evaluation of quantifiers is not implemented")

/-- C9: when the evaluator's step function resolves a variable, a free
variable absent from the model, from every let-binding scope and from
every quantified scope evaluates without error to the default value of
its declared type; a variable found only in an active quantified scope
is an explicit evaluation error; and a function-symbol application is
an explicit evaluation error. -/
theorem C9_eval_variable_resolution :
    (∀ (typeOf : RealVar → Symb → Option Typ)
       (model : RealVar → Option RCst)
       (bindings : List (List (Symb × RCst)))
       (quantified : List (List (Symb × Typ)))
       (scope : Symb) (rvar : RealVar) (ty : Typ),
      model rvar = none →
      (∀ m ∈ bindings, m.lookup rvar.sym = none) →
      (∀ m ∈ quantified, m.lookup rvar.sym = none) →
      typeOf rvar scope = some ty →
      eval_term typeOf model (.V rvar) bindings quantified scope =
        .ok ty.default) ∧
    (∀ (typeOf : RealVar → Symb → Option Typ)
       (model : RealVar → Option RCst)
       (bindings : List (List (Symb × RCst)))
       (quantified : List (List (Symb × Typ)))
       (scope : Symb) (rvar : RealVar) (ty : Typ),
      model rvar = none →
      (∀ m ∈ bindings, m.lookup rvar.sym = none) →
      zip2.extract rvar.sym quantified = some ty →
      eval_term typeOf model (.V rvar) bindings quantified scope =
        .error (.msg "cannot evaluate quantified variable")) ∧
    (∀ (typeOf : RealVar → Symb → Option Typ)
       (model : RealVar → Option RCst)
       (bindings : List (List (Symb × RCst)))
       (quantified : List (List (Symb × Typ)))
       (scope : Symb) (f : Symb) (args : List RCst),
      eval_term typeOf model (.App f args) bindings quantified scope =
        .error (.msg "evaluation of applications is not implemented")) := by
  refine ⟨?_, ?_, ?_⟩
  · intro typeOf model bindings quantified scope rvar ty hm hb hq hty
    have hb' := (zip2.extract_eq_none_iff rvar.sym bindings).2 hb
    have hq' := (zip2.extract_eq_none_iff rvar.sym quantified).2 hq
    simp [eval_term, hm, hb', hq', hty]
  · intro typeOf model bindings quantified scope rvar ty hm hb hq
    have hb' := (zip2.extract_eq_none_iff rvar.sym bindings).2 hb
    simp [eval_term, hm, hb', hq]
  · intro typeOf model bindings quantified scope f args
    rfl

/-- Witness for C9 at concrete inputs: the free variable `v` (declared
`Int`, absent everywhere) evaluates to the `Int` default; the variable
`q` bound only by an enclosing quantifier errors; an application
errors. -/
theorem C9_eval_variable_resolution_witness :
    eval_term (fun _ _ => some .Int) (fun _ => none) (.V (.Var "v"))
      [] [] "sys" = .ok (Typ.default .Int) ∧
    eval_term (fun _ _ => some .Int) (fun _ => none) (.V (.Var "q"))
      [] [[("q", Typ.Bool)]] "sys" =
      .error (.msg "cannot evaluate quantified variable") ∧
    eval_term (fun _ _ => some .Int) (fun _ => none) (.App "f" [.Int 1])
      [] [] "sys" =
      .error (.msg "evaluation of applications is not implemented") :=
  ⟨C9_eval_variable_resolution.1 (fun _ _ => some .Int) (fun _ => none)
      [] [] "sys" (.Var "v") .Int rfl (by simp) (by simp) rfl,
   C9_eval_variable_resolution.2.1 (fun _ _ => some .Int) (fun _ => none)
      [] [[("q", Typ.Bool)]] "sys" (.Var "q") Typ.Bool rfl (by simp)
      (by simp [zip2.extract, zip2.extractRev, List.lookup, RealVar.sym]),
   C9_eval_variable_resolution.2.2 (fun _ _ => some .Int) (fun _ => none)
      [] [] "sys" "f" [.Int 1]⟩

/-! ## The BMC engine's solver protocol (`bmc/src/lib.rs`, `Bmc::run`)

The loop body of `Bmc::run` is straight-line code whose control flow is
driven by the outcomes of the message channel, the property manager and
each solver call. The embedding records the sequence of solver-facing
calls the run performs: the events of one iteration (all issued at the
iteration's current offset `k`) are computed by `iterBlock` from an
oracle describing those outcomes, and the loop advances to offset `k+1`
exactly when the body reaches its final `sys.unroll`/`k.nxt()` line
successfully. -/

namespace Bmc

/-- Solver-facing calls inside one loop iteration, in source order:
`actlit.mk_fresh_declare`, `solver.assert` of the activation-literal
implication, `solver.check_sat_assuming`, `props.get_false`,
`solver.get_model`, `sys.unroll`. -/
inductive IterEv where
  | declareActlit
  | assertImpl
  | checkSat
  | getFalsified
  | getModel
  | unroll
deriving DecidableEq, Repr

/-- A solver-facing event of the whole run: a setup call, or an
iteration call tagged with the iteration's current offset. -/
inductive Ev where
  | declareFuns
  | assertInit
  | iter (k : Nat) (e : IterEv)
deriving DecidableEq, Repr

/-- Oracle for one loop iteration of `Bmc::run`: the outcome of every
call whose result steers the body's control flow. -/
structure StepIn where
  /-- `event.recv()` returned `None`: the run returns. -/
  recvClosed : Bool
  /-- processing a `Forget` message failed: error return. -/
  forgetFail : Bool
  /-- `props.none_left()` at the top of the body: `done_at`, break. -/
  noneLeft0 : Bool
  /-- `solver.assert` of the implication failed: error return. -/
  assertFail : Bool
  /-- `check_sat_assuming`: `some true` sat, `some false` unsat,
  `none` error (break). -/
  checkRes : Option Bool
  /-- `props.get_false` succeeded. -/
  getFalseOk : Bool
  /-- `solver.get_model` succeeded. -/
  getModelOk : Bool
  /-- forgetting the falsified properties failed: error return. -/
  forget2Fail : Bool
  /-- `props.none_left()` after the check: `done_at`, break. -/
  noneLeft1 : Bool
  /-- `sys.unroll` failed: error return. -/
  unrollFail : Bool
deriving DecidableEq, Repr

/-- The tail of an iteration after the check-sat handling: the final
`none_left` test and the unroll call. -/
def unrollPart (s : StepIn) : List IterEv :=
  if s.noneLeft1 then [] else [.unroll]

/-- The solver-facing calls of one iteration of the loop body, in the
order `Bmc::run` issues them. -/
def iterBlock (s : StepIn) : List IterEv :=
  if s.recvClosed then [] else
  if s.forgetFail then [] else
  if s.noneLeft0 then [] else
  [.declareActlit, .assertImpl] ++
  (if s.assertFail then [] else
    [.checkSat] ++
    (match s.checkRes with
     | none => []
     | some true =>
       [.getFalsified] ++
       (if !s.getFalseOk then [] else
         [.getModel] ++
         (if !s.getModelOk then [] else
           (if s.forget2Fail then [] else unrollPart s)))
     | some false => unrollPart s))

/-- Whether the body runs through to `k = k.nxt()` and loops again. -/
def iterContinues (s : StepIn) : Bool :=
  !s.recvClosed && !s.forgetFail && !s.noneLeft0 && !s.assertFail &&
  (match s.checkRes with
   | none => false
   | some true =>
     s.getFalseOk && s.getModelOk && !s.forget2Fail && !s.noneLeft1 &&
     !s.unrollFail
   | some false => !s.noneLeft1 && !s.unrollFail)

/-- The loop of `Bmc::run` from offset `k`, truncated at `fuel`
iterations (the source loop has no built-in bound; every property below
holds for every truncation). -/
def bmcLoop (o : Nat → StepIn) : Nat → Nat → List Ev
  | _, 0 => []
  | k, fuel + 1 =>
    (iterBlock (o k)).map (Ev.iter k) ++
    (if iterContinues (o k) then bmcLoop o (k + 1) fuel else [])

/-- Oracle for the setup phase of `Bmc::run`. -/
structure SetupIn where
  /-- `Solver::mk` succeeded. -/
  solverMkOk : Bool
  /-- `sys.defclare_funs` succeeded. -/
  declOk : Bool
  /-- `sys.assert_init` succeeded. -/
  initOk : Bool
  /-- `PropManager::mk` succeeded. -/
  propMgrOk : Bool
deriving DecidableEq, Repr

/-- The setup calls actually issued (each `try_error!` stops the run on
failure, after the failing call). -/
def setupEvs (su : SetupIn) : List Ev :=
  if su.solverMkOk then
    .declareFuns :: (if su.declOk then [.assertInit] else [])
  else []

/-- All four setup stages succeeded, so the loop is entered. -/
def setupOk (su : SetupIn) : Bool :=
  su.solverMkOk && su.declOk && su.initOk && su.propMgrOk

/-- The full solver-facing trace of `Bmc::run`: setup then the loop
from offset 0 (`Offset2::init()`). -/
def bmcRun (su : SetupIn) (o : Nat → StepIn) (fuel : Nat) : List Ev :=
  setupEvs su ++ (if setupOk su then bmcLoop o 0 fuel else [])

theorem iterBlock_nodup : ∀ s : StepIn, (iterBlock s).Nodup := by
  intro s
  unfold iterBlock unrollPart
  repeat' split
  all_goals decide

theorem iterBlock_check : ∀ s : StepIn, IterEv.checkSat ∈ iterBlock s →
    [IterEv.assertImpl, IterEv.checkSat].Sublist (iterBlock s) := by
  intro s
  unfold iterBlock unrollPart
  repeat' split
  all_goals decide

theorem iterBlock_unroll : ∀ s : StepIn, IterEv.unroll ∈ iterBlock s →
    [IterEv.assertImpl, IterEv.checkSat,
      IterEv.unroll].Sublist (iterBlock s) := by
  intro s
  unfold iterBlock unrollPart
  repeat' split
  all_goals decide

theorem iter_injective (k : Nat) :
    Function.Injective (Ev.iter k) := by
  intro a b h
  injection h

theorem bmcLoop_mem_ge (o : Nat → StepIn) :
    ∀ (fuel k k' : Nat) (e : IterEv),
    Ev.iter k' e ∈ bmcLoop o k fuel → k ≤ k' := by
  intro fuel
  induction fuel with
  | zero => simp [bmcLoop]
  | succ fuel ih =>
    intro k k' e h
    simp only [bmcLoop] at h
    rcases List.mem_append.1 h with h1 | h2
    · rcases List.mem_map.1 h1 with ⟨a, _, ha⟩
      injection ha with h3 _
      omega
    · by_cases hc : iterContinues (o k) = true
      · rw [if_pos hc] at h2
        have := ih (k + 1) k' e h2
        omega
      · rw [if_neg hc] at h2
        simp at h2

theorem bmcLoop_count_le_one (o : Nat → StepIn) :
    ∀ (fuel k k' : Nat) (e : IterEv),
    (bmcLoop o k fuel).count (Ev.iter k' e) ≤ 1 := by
  intro fuel
  induction fuel with
  | zero => simp [bmcLoop]
  | succ fuel ih =>
    intro k k' e
    simp only [bmcLoop, List.count_append]
    by_cases hk : k' = k
    · subst hk
      have h1 : ((iterBlock (o k')).map (Ev.iter k')).count (Ev.iter k' e) =
          (iterBlock (o k')).count e :=
        List.count_map_of_injective _ _ (iter_injective k') e
      have h2 : (iterBlock (o k')).count e ≤ 1 :=
        List.nodup_iff_count_le_one.1 (iterBlock_nodup (o k')) e
      have h3 : (if iterContinues (o k') = true then
          bmcLoop o (k' + 1) fuel else []).count (Ev.iter k' e) = 0 := by
        by_cases hc : iterContinues (o k') = true
        · rw [if_pos hc]
          rw [List.count_eq_zero]
          intro hmem
          have := bmcLoop_mem_ge o fuel (k' + 1) k' e hmem
          omega
        · rw [if_neg hc]
          rfl
      omega
    · have h1 : ((iterBlock (o k)).map (Ev.iter k)).count (Ev.iter k' e) = 0 := by
        rw [List.count_eq_zero]
        intro hmem
        rcases List.mem_map.1 hmem with ⟨a, _, ha⟩
        injection ha with h3 _
        exact hk h3.symm
      have h2 : (if iterContinues (o k) = true then
          bmcLoop o (k + 1) fuel else []).count (Ev.iter k' e) ≤ 1 := by
        by_cases hc : iterContinues (o k) = true
        · rw [if_pos hc]
          exact ih (k + 1) k' e
        · rw [if_neg hc]
          simp
      omega

theorem bmcLoop_check_sublist (o : Nat → StepIn) :
    ∀ (fuel k k' : Nat), Ev.iter k' .checkSat ∈ bmcLoop o k fuel →
    [Ev.iter k' .assertImpl,
      Ev.iter k' .checkSat].Sublist (bmcLoop o k fuel) := by
  intro fuel
  induction fuel with
  | zero => simp [bmcLoop]
  | succ fuel ih =>
    intro k k' h
    simp only [bmcLoop] at h ⊢
    rcases List.mem_append.1 h with h1 | h2
    · rcases List.mem_map.1 h1 with ⟨a, hain, ha⟩
      injection ha with h3 h4
      subst h3
      subst h4
      have hsub := iterBlock_check (o k) hain
      have hmap := hsub.map (Ev.iter k)
      simpa using hmap.trans (List.sublist_append_left _ _)
    · by_cases hc : iterContinues (o k) = true
      · rw [if_pos hc] at h2 ⊢
        exact (ih (k + 1) k' h2).trans (List.sublist_append_right _ _)
      · rw [if_neg hc] at h2
        simp at h2

theorem bmcLoop_unroll_sublist (o : Nat → StepIn) :
    ∀ (fuel k k' : Nat), Ev.iter k' .unroll ∈ bmcLoop o k fuel →
    [Ev.iter k' .assertImpl, Ev.iter k' .checkSat,
      Ev.iter k' .unroll].Sublist (bmcLoop o k fuel) := by
  intro fuel
  induction fuel with
  | zero => simp [bmcLoop]
  | succ fuel ih =>
    intro k k' h
    simp only [bmcLoop] at h ⊢
    rcases List.mem_append.1 h with h1 | h2
    · rcases List.mem_map.1 h1 with ⟨a, hain, ha⟩
      injection ha with h3 h4
      subst h3
      subst h4
      have hsub := iterBlock_unroll (o k) hain
      have hmap := hsub.map (Ev.iter k)
      simpa using hmap.trans (List.sublist_append_left _ _)
    · by_cases hc : iterContinues (o k) = true
      · rw [if_pos hc] at h2 ⊢
        exact (ih (k + 1) k' h2).trans (List.sublist_append_right _ _)
      · rw [if_neg hc] at h2
        simp at h2

theorem setupEvs_no_iter (su : SetupIn) (k : Nat) (e : IterEv) :
    Ev.iter k e ∉ setupEvs su := by
  unfold setupEvs
  repeat' split
  all_goals simp

end Bmc

/-- C8: in every run of the BMC loop, for every offset `k`: the run
issues at most one activation-literal-implication assert, at most one
check-sat-assuming query and at most one unroll for step `k`; whenever
step `k`'s query is issued, the implication assert for step `k` was
issued before it; and whenever the transition relation for the next
step is unrolled (the `unroll` call of iteration `k`), it happens only
after step `k`'s query has returned — for every oracle of solver and
channel outcomes and every truncation of the loop. -/
theorem C8_bmc_step_ordering (su : Bmc.SetupIn) (o : Nat → Bmc.StepIn)
    (fuel k : Nat) :
    ((Bmc.bmcRun su o fuel).count (.iter k .assertImpl) ≤ 1 ∧
     (Bmc.bmcRun su o fuel).count (.iter k .checkSat) ≤ 1 ∧
     (Bmc.bmcRun su o fuel).count (.iter k .unroll) ≤ 1) ∧
    (Bmc.Ev.iter k .checkSat ∈ Bmc.bmcRun su o fuel →
      [Bmc.Ev.iter k .assertImpl,
       Bmc.Ev.iter k .checkSat].Sublist (Bmc.bmcRun su o fuel)) ∧
    (Bmc.Ev.iter k .unroll ∈ Bmc.bmcRun su o fuel →
      [Bmc.Ev.iter k .assertImpl, Bmc.Ev.iter k .checkSat,
       Bmc.Ev.iter k .unroll].Sublist (Bmc.bmcRun su o fuel)) := by
  have hcount : ∀ e : Bmc.IterEv,
      (Bmc.bmcRun su o fuel).count (.iter k e) ≤ 1 := by
    intro e
    unfold Bmc.bmcRun
    rw [List.count_append]
    have h1 : (Bmc.setupEvs su).count (.iter k e) = 0 :=
      List.count_eq_zero.2 (Bmc.setupEvs_no_iter su k e)
    have h2 : (if Bmc.setupOk su = true then Bmc.bmcLoop o 0 fuel
        else []).count (.iter k e) ≤ 1 := by
      by_cases hs : Bmc.setupOk su = true
      · rw [if_pos hs]
        exact Bmc.bmcLoop_count_le_one o fuel 0 k e
      · rw [if_neg hs]
        simp
    omega
  have hmem : ∀ e : Bmc.IterEv, Bmc.Ev.iter k e ∈ Bmc.bmcRun su o fuel →
      Bmc.setupOk su = true ∧ Bmc.Ev.iter k e ∈ Bmc.bmcLoop o 0 fuel := by
    intro e h
    unfold Bmc.bmcRun at h
    rcases List.mem_append.1 h with h1 | h2
    · exact absurd h1 (Bmc.setupEvs_no_iter su k e)
    · by_cases hs : Bmc.setupOk su = true
      · rw [if_pos hs] at h2
        exact ⟨hs, h2⟩
      · rw [if_neg hs] at h2
        simp at h2
  refine ⟨⟨hcount _, hcount _, hcount _⟩, ?_, ?_⟩
  · intro h
    obtain ⟨hs, h2⟩ := hmem _ h
    have := Bmc.bmcLoop_check_sublist o fuel 0 k h2
    unfold Bmc.bmcRun
    rw [if_pos hs]
    exact this.trans (List.sublist_append_right _ _)
  · intro h
    obtain ⟨hs, h2⟩ := hmem _ h
    have := Bmc.bmcLoop_unroll_sublist o fuel 0 k h2
    unfold Bmc.bmcRun
    rw [if_pos hs]
    exact this.trans (List.sublist_append_right _ _)

/-- Witness for C8 on a concrete run: all setup stages succeed, every
iteration's query returns unsat and the loop runs two iterations; at
step 0 the implication assert precedes the query, which precedes the
unroll. -/
theorem C8_bmc_step_ordering_witness :
    [Bmc.Ev.iter 0 .assertImpl, Bmc.Ev.iter 0 .checkSat,
     Bmc.Ev.iter 0 .unroll].Sublist
      (Bmc.bmcRun ⟨true, true, true, true⟩
        (fun _ => ⟨false, false, false, false, some false, true, true,
          false, false, false⟩) 2) :=
  (C8_bmc_step_ordering ⟨true, true, true, true⟩
    (fun _ => ⟨false, false, false, false, some false, true, true,
      false, false, false⟩) 2 0).2.2 (by decide)
